import Mathlib

/-!
# Verification of the query-translation engine (parser.py)

A shallow embedding of the query parser / SQL builder of this repository:
schema-driven column resolution, join-path discovery over the foreign-key
graph, shorthand query parsing and parameterized SQL building.

Python strings are modelled as `String` processed through their character
lists (Python string indices are code-point based).  Python dicts are
modelled as insertion-ordered association lists (`List (key × value)`):
lookup returns the first binding, assignment replaces the first binding in
place or appends a new one, iteration follows list order.  Python sets are
modelled as insertion-ordered duplicate-free lists (membership is all that
the source observes, plus an iteration order that is fixed within one
process; the insertion order is one faithful choice for it).  `re` usage
(`\w`, `\s`) is modelled over ASCII, which covers every identifier and
query the source manipulates.
-/

/-! ## String utilities (Python `str` operations, code-point based) -/

/-- Python `str.lower()` (ASCII case folding). -/
def lowerS (s : String) : String := ⟨s.data.map Char.toLower⟩

/-- Python `str.upper()` (ASCII case folding). -/
def upperS (s : String) : String := ⟨s.data.map Char.toUpper⟩

/-- Characters treated as whitespace by Python `str.strip()` / `\s` (ASCII part). -/
def isWsChar (c : Char) : Bool :=
  c = ' ' ∨ c = '\t' ∨ c = '\n' ∨ c = '\r' ∨ c = '\x0b' ∨ c = '\x0c'

/-- Python `str.strip()`: drop leading and trailing whitespace. -/
def stripS (s : String) : String :=
  ⟨((s.data.dropWhile isWsChar).reverse.dropWhile isWsChar).reverse⟩

/-- Python `str.strip(chars)`: drop leading and trailing characters from `cs`. -/
def stripCharsS (s : String) (cs : List Char) : String :=
  ⟨((s.data.dropWhile (cs.contains ·)).reverse.dropWhile (cs.contains ·)).reverse⟩

/-- Does the character occur in the string (Python `c in s` for a 1-char needle)? -/
def hasChar (s : String) (c : Char) : Bool := s.data.contains c

/-- List-level substring test: does `needle` occur inside `hay`? -/
def listIsInfix (needle hay : List Char) : Bool :=
  match hay with
  | [] => needle.isEmpty
  | _ :: t => needle.isPrefixOf hay || listIsInfix needle t

/-- Python `needle in hay` for strings (substring containment). -/
def isSubstrS (needle hay : String) : Bool := listIsInfix needle.data hay.data

/-- First index at which `needle` occurs in `hay` (Python `str.find` / `str.index`). -/
def listFindSub (needle hay : List Char) : Option Nat :=
  match hay with
  | [] => if needle.isEmpty then some 0 else none
  | _ :: t =>
    if needle.isPrefixOf hay then some 0
    else (listFindSub needle t).map (· + 1)

/-- Python `hay.find(needle)` as an `Option` of the character index. -/
def findSubS (needle hay : String) : Option Nat := listFindSub needle.data hay.data

/-- Python `s[:i]` (character slice). -/
def takeS (s : String) (i : Nat) : String := ⟨s.data.take i⟩

/-- Python `s[i:]` (character slice). -/
def dropS (s : String) (i : Nat) : String := ⟨s.data.drop i⟩

/-- Python `s.startswith(p)`. -/
def beginsWith (s p : String) : Bool := p.data.isPrefixOf s.data

/-- Python `s.endswith(p)`. -/
def finishesWith (s p : String) : Bool := p.data.reverse.isPrefixOf s.data.reverse

/-- Python `s.split(sep, 1)` restricted to the two pieces:
returns `(before, after)` around the first occurrence of `sep`, or `none`. -/
def split1S (s sep : String) : Option (String × String) :=
  (findSubS sep s).map fun i => (takeS s i, dropS s (i + sep.data.length))

/-- Fuel-driven worker for `splitOnS` (structural recursion on the fuel so
the kernel can evaluate it; a non-empty separator consumes at least one
character per step, so `l.length` fuel never runs out). -/
def splitOnFuel (sep : List Char) : Nat → List Char → List (List Char)
  | _, [] => [[]]
  | 0, l => [l]
  | fuel + 1, c :: t =>
    if sep.isPrefixOf (c :: t) then
      [] :: splitOnFuel sep fuel ((c :: t).drop sep.length)
    else
      match splitOnFuel sep fuel t with
      | [] => [[c]]
      | p :: ps => (c :: p) :: ps

/-- Python `s.split(sep)` for a non-empty separator (keeps empty pieces,
leftmost non-overlapping occurrences). -/
def splitOnS (s sep : String) : List String :=
  if sep.data = [] then [s]
  else (splitOnFuel sep.data s.data.length s.data).map (fun l => ⟨l⟩)

/-- The fuel-driven worker of `replaceList` (structural recursion on the
fuel so the kernel can evaluate it; a non-empty pattern consumes at least
one character per step, so `hay.length` fuel never runs out). -/
def replaceFuel (old new : List Char) : Nat → List Char → List Char
  | _, [] => []
  | 0, hay => hay
  | fuel + 1, c :: t =>
    if old.isPrefixOf (c :: t) then
      new ++ replaceFuel old new fuel ((c :: t).drop old.length)
    else c :: replaceFuel old new fuel t

/-- Python `str.replace(old, new)`: replace every occurrence, left to right,
non-overlapping.  For an empty `old` the string is returned unchanged (the
source never calls `replace` with an empty pattern). -/
def replaceList (hay old new : List Char) : List Char :=
  if old = [] then hay else replaceFuel old new hay.length hay

/-- Python `s.replace(old, new)`. -/
def replaceS (s old new : String) : String := ⟨replaceList s.data old.data new.data⟩

/-- Python `sep.join(parts)`. -/
def joinSep (sep : String) (parts : List String) : String :=
  match parts with
  | [] => ""
  | [p] => p
  | p :: rest => p ++ sep ++ joinSep sep rest

/-- Python `str.split()` (split on whitespace runs, no empty pieces). -/
def splitWsAll (s : String) : List String :=
  splitWsAux s.data []
where
  splitWsAux : List Char → List Char → List String
    | [], acc => if acc.isEmpty then [] else [⟨acc.reverse⟩]
    | c :: t, acc =>
      if isWsChar c then
        if acc.isEmpty then splitWsAux t [] else (⟨acc.reverse⟩ : String) :: splitWsAux t []
      else splitWsAux t (c :: acc)

/-- Python `s.split(None, 1)`: skip leading whitespace, take the first
whitespace-delimited token, skip the whitespace after it; the remainder (if
non-empty) is the second piece. -/
def splitWs1 (s : String) : List String :=
  let l := s.data.dropWhile isWsChar
  match l with
  | [] => []
  | _ =>
    let tok := l.takeWhile (fun c => ¬ isWsChar c)
    let rest := (l.drop tok.length).dropWhile isWsChar
    if rest.isEmpty then [⟨tok⟩] else [⟨tok⟩, ⟨rest⟩]

/-- Count of `%s` parameter placeholders in a character list (occurrences of
`'%'` immediately followed by `'s'`; `%s` cannot overlap itself). -/
def countPH : List Char → Nat
  | [] => 0
  | c :: t => (if c = '%' ∧ t.head? = some 's' then 1 else 0) + countPH t

/-- Count of `%s` placeholders in a string. -/
def countPHS (s : String) : Nat := countPH s.data

/-- `'%'` does not occur in the string (identifier hygiene for placeholder counting). -/
def pctFree (s : String) : Bool := !s.data.contains '%'

/-! ## Python dict / set model -/

/-- Dict lookup: first binding for the key. -/
def alookup {β : Type} (m : List (String × β)) (k : String) : Option β :=
  match m with
  | [] => none
  | (k', v) :: t => if k' = k then some v else alookup t k

/-- Dict membership. -/
def amem {β : Type} (m : List (String × β)) (k : String) : Bool :=
  (alookup m k).isSome

/-- Dict assignment `m[k] = v`: replace the first binding in place, append otherwise. -/
def aset {β : Type} (m : List (String × β)) (k : String) (v : β) : List (String × β) :=
  match m with
  | [] => [(k, v)]
  | (k', v') :: t => if k' = k then (k, v) :: t else (k', v') :: aset t k v

/-- Lookup on pair-typed keys (for `preferred_paths[(base, target)]`). -/
def alookupP {β : Type} (m : List ((String × String) × β)) (k : String × String) :
    Option β :=
  match m with
  | [] => none
  | (k', v) :: t => if k' = k then some v else alookupP t k

/-- Insertion-ordered set `add` (no duplicates). -/
def sadd (s : List String) (x : String) : List String :=
  if s.contains x then s else s ++ [x]

/-- Insertion-ordered set union (left to right). -/
def sunion (s : List String) (xs : List String) : List String :=
  xs.foldl sadd s

/-! ## Data model (schema snapshot, configuration, parser state) -/

/-- One column of a table: name and declared type (as the schema provider reports it). -/
structure Col where
  name : String
  typ : String
deriving DecidableEq, Repr

/-- One outgoing foreign-key edge of a table. -/
structure FKRel where
  from_column : String
  to_table : String
  to_column : String
deriving DecidableEq, Repr

/-- A resolved `{table, column}` reference. -/
structure ColInfo where
  table : String
  column : String
deriving DecidableEq, Repr

/-- A select-list entry: resolved reference plus optional aggregate tag. -/
structure SelCol where
  table : String
  column : String
  aggregate : Option String
deriving DecidableEq, Repr

/-- A bound parameter value (string, boolean or integer). -/
inductive Param where
  | s (v : String)
  | b (v : Bool)
  | i (v : Int)
deriving DecidableEq, Repr

/-- Python `str(value)` for a parameter (used in applied-filter descriptions). -/
def paramStr : Param → String
  | .s v => v
  | .b true => "True"
  | .b false => "False"
  | .i n => toString n

/-- One configured default filter (`op` may be absent, defaulting to `=`). -/
structure DefFilter where
  column : String
  opt_op : Option String
  value : Param
deriving DecidableEq, Repr

/-- The per-database configuration bundle handed to the parser. -/
structure Config where
  custom_mappings : List (String × ColInfo)
  status_mappings : List (String × (String × Bool))
  status_keywords : Option (List String)
  default_filters : List (String × List DefFilter)
  preferred_paths : List ((String × String) × List String)
deriving DecidableEq, Repr

/-- Empty configuration (all `config.get` defaults). -/
def emptyConfig : Config :=
  { custom_mappings := [], status_mappings := [], status_keywords := none,
    default_filters := [], preferred_paths := [] }

/-- The parser's construction-time inputs: schema snapshot, relations, config. -/
structure Env where
  schema : List (String × List Col)
  relations : List (String × List FKRel)
  config : Config
deriving DecidableEq, Repr

/-- `status_keywords` with the source's default list. -/
def statusKeywords (env : Env) : List String :=
  env.config.status_keywords.getD ["status", "state", "kondisi"]

/-- The fuzzy-search memoization cache (`self._fuzzy_cache`). -/
abbrev Cache : Type := List (String × List ColInfo)

/-- The empty cache a freshly constructed parser starts from. -/
def emptyCache : Cache := ([] : List (String × List ColInfo))

/-! ## Schema index (`_build_column_map`, `_build_reverse_relations`) -/

/-- `QueryParser._add_to_map`: unique keys are assigned outright; non-unique
keys accumulate candidates, skipping `{table, column}` duplicates. -/
def addToMap (m : List (String × List ColInfo)) (key : String) (ci : ColInfo)
    (unique : Bool) : List (String × List ColInfo) :=
  match alookup m key with
  | none => aset m key [ci]
  | some existing =>
    if unique then aset m key [ci]
    else if existing.any (fun e => e.table = ci.table ∧ e.column = ci.column) then m
    else aset m key (existing ++ [ci])

/-- The source's list of "common" column names that get a `table_column` key. -/
def commonCols : List String :=
  ["name", "id", "code", "type", "status", "date", "description", "title"]

/-- The four auto-generated keys for one column of one table. -/
def addColKeys (m : List (String × List ColInfo)) (table : String) (c : Col) :
    List (String × List ColInfo) :=
  let colName := lowerS c.name
  let ci : ColInfo := { table := table, column := c.name }
  let m := addToMap m colName ci false
  let m := addToMap m (table ++ "." ++ colName) ci true
  let m := if commonCols.contains colName then
      addToMap m (table ++ "_" ++ colName) ci true
    else m
  let noUnd := replaceS colName "_" ""
  if noUnd ≠ colName then addToMap m noUnd ci false else m

/-- `QueryParser._build_column_map`: auto-generated keys from the schema, then
custom mappings from the config overriding whole entries. -/
def buildColumnMap (env : Env) : List (String × List ColInfo) :=
  let auto := env.schema.foldl
    (fun m tc => tc.2.foldl (fun m c => addColKeys m tc.1 c) m) []
  env.config.custom_mappings.foldl
    (fun m ac => aset m (lowerS ac.1) [ac.2]) auto

/-- `self.table_columns`: table → ordered list of its column names. -/
def tableColumns (env : Env) : List (String × List String) :=
  env.schema.foldl (fun m tc => aset m tc.1 (tc.2.map Col.name)) []

/-- One reversed foreign-key edge. -/
structure RevRel where
  from_table : String
  from_column : String
  to_column : String
deriving DecidableEq, Repr

/-- `QueryParser._build_reverse_relations`: to_table → incoming edges. -/
def reverseRelations (env : Env) : List (String × List RevRel) :=
  env.relations.foldl
    (fun m ft =>
      ft.2.foldl
        (fun m rel =>
          let existing := (alookup m rel.to_table).getD []
          aset m rel.to_table (existing ++
            [{ from_table := ft.1, from_column := rel.from_column,
               to_column := rel.to_column }]))
        m)
    []

/-! ## Join graph (`get_related_tables`, `_score_relation`, `find_join_path`) -/

/-- Join direction and columns for one adjacent table. -/
structure JoinInfo where
  join_type : String
  base_column : String
  target_column : String
deriving DecidableEq, Repr

/-- `QueryParser.get_related_tables`: outgoing edges first (later edges to the
same table overwrite), then incoming edges that do not override. -/
def getRelatedTables (env : Env) (base : String) : List (String × JoinInfo) :=
  let outgoing := ((alookup env.relations base).getD []).foldl
    (fun m rel => aset m rel.to_table
      { join_type := "outgoing", base_column := rel.from_column,
        target_column := rel.to_column })
    []
  ((alookup (reverseRelations env) base).getD []).foldl
    (fun m rel =>
      if amem m rel.from_table then m
      else aset m rel.from_table
        { join_type := "incoming", base_column := rel.to_column,
          target_column := rel.from_column })
    outgoing

/-- Tables the source scores as low relevance (the literal set from
`_score_relation`). -/
def irrelevantTables : List String :=
  ["file_content", "attachment", "document_history", "file_history"]

/-- `QueryParser._score_relation`: lower is better. -/
def scoreRelation (env : Env) (fromTable toTable : String) (ji : JoinInfo) : Nat :=
  let baseCol := ji.base_column
  let targetCol := ji.target_column
  if irrelevantTables.contains toTable ∨ irrelevantTables.contains fromTable then 10
  else if ji.join_type = "incoming" then
    if targetCol = fromTable ++ "_id" ∨ targetCol = "id" then 0
    else if finishesWith targetCol "_id" ∧ isSubstrS fromTable targetCol then 0
    else 1
  else
    if baseCol = toTable ++ "_id" then 0
    else if finishesWith baseCol "_id" ∧ isSubstrS toTable baseCol then 1
    else 2

/-- A join path: ordered `(table, join_info)` steps. -/
abbrev JoinPath : Type := List (String × JoinInfo)

/-- A heap entry `(score, counter, table, path)`; the heap is modelled as a
list sorted ascending by the lexicographic `(score, counter)` key (counters
are unique, so this matches `heapq` exactly). -/
abbrev HeapE : Type := Nat × Nat × String × JoinPath

/-- Push into the sorted-list heap. -/
def heapPush (h : List HeapE) (e : HeapE) : List HeapE :=
  match h with
  | [] => [e]
  | x :: r =>
    if e.1 < x.1 ∨ (e.1 = x.1 ∧ e.2.1 < x.2.1) then e :: x :: r
    else x :: heapPush r e

/-- Expand one table: push every unvisited neighbour in adjacency order (the
target is never among them — the caller checks it first), threading the
visited set and the push counter. -/
def expandNode (env : Env) (table : String) (score : Nat) (path : JoinPath) :
    List (String × JoinInfo) → List HeapE → List String → Nat →
    List HeapE × List String × Nat
  | [], h, v, cnt => (h, v, cnt)
  | nt :: rest, h, v, cnt =>
    if v.contains nt.1 then expandNode env table score path rest h v cnt
    else
      expandNode env table score path rest
        (heapPush h (score + scoreRelation env table nt.1 nt.2, cnt, nt.1, path ++ [nt]))
        (nt.1 :: v) (cnt + 1)

/-- The scored best-first search loop of `find_join_path`, with explicit fuel.
`none` means the fuel ran out (proved unreachable below); `some none` means
the target is unreachable; `some (some p)` is the found path. -/
def joinLoop (env : Env) (target : String) :
    Nat → List HeapE → List String → Nat → Option (Option JoinPath)
  | 0, _, _, _ => none
  | _ + 1, [], _, _ => some none
  | fuel + 1, (score, _, table, path) :: rest, visited, counter =>
    let related := getRelatedTables env table
    match alookup related target with
    | some ji => some (some (path ++ [(target, ji)]))
    | none =>
      let (h, v, cnt) := expandNode env table score path related rest visited counter
      joinLoop env target fuel h v cnt

/-- Every table name that can ever be visited by the search: relation keys
plus all edge targets, de-duplicated. -/
def allTablesD (env : Env) : List String :=
  ((env.relations.map Prod.fst) ++
    (env.relations.flatMap (fun tr => tr.2.map FKRel.to_table))).dedup

/-- Fuel that provably suffices for `joinLoop`. -/
def joinFuel (env : Env) (heap : List HeapE) : Nat :=
  (allTablesD env).length + heap.length + 1

/-- The automatic (scored best-first) part of `find_join_path`: lines 220-251
of the source.  If the target is directly related to the base, the direct
edge is returned at once; otherwise unvisited neighbours seed the heap and
the loop runs. -/
def findJoinPathAuto (env : Env) (base target : String) : Option (Option JoinPath) :=
  let related := getRelatedTables env base
  match alookup related target with
  | some ji => some (some [(target, ji)])
  | none =>
    let r := expandNode env base 0 [] related [] [base] 0
    joinLoop env target (joinFuel env r.1) r.1 r.2.1 r.2.2

/-- `QueryParser._build_preferred_path`: walk the configured intermediates,
requiring a direct edge at every hop. -/
def buildPreferredPath (env : Env) (base : String) (hops : List String) :
    Option JoinPath :=
  match hops with
  | [] => some []
  | nt :: rest =>
    match alookup (getRelatedTables env base) nt with
    | none => none
    | some ji => (buildPreferredPath env nt rest).map (fun p => (nt, ji) :: p)

/-- `QueryParser.find_join_path`: preferred path first, then the automatic
search (whose fuel sentinel is collapsed to "no path"; the sentinel is proved
unreachable below). -/
def findJoinPath (env : Env) (base target : String) : Option JoinPath :=
  if base = target then some []
  else
    let auto : Option JoinPath :=
      match findJoinPathAuto env base target with
      | some r => r
      | none => none
    match alookupP env.config.preferred_paths (base, target) with
    | some inters =>
      match buildPreferredPath env base (inters ++ [target]) with
      | some p => some p
      | none => auto
    | none => auto

/-! ## Column resolution (`find_column` and friends) -/

/-- `QueryParser._get_matches`. -/
def getMatches (env : Env) (key : String) : List ColInfo :=
  (alookup (buildColumnMap env) key).getD []

/-- A fuzzy match candidate with its score. -/
structure ScoredCI where
  ci : ColInfo
  score : Nat
deriving DecidableEq, Repr

/-- Stable insertion keeping the list sorted by score descending: the new
element goes after every element with a greater-or-equal score (this is the
stable `list.sort(key=score, reverse=True)` of the source). -/
def insertScoreDesc (x : ScoredCI) : List ScoredCI → List ScoredCI
  | [] => [x]
  | y :: ys => if x.score ≤ y.score then y :: insertScoreDesc x ys else x :: y :: ys

/-- Stable sort by score descending. -/
def sortScoreDesc (l : List ScoredCI) : List ScoredCI :=
  l.foldl (fun acc x => insertScoreDesc x acc) []

/-- The score the fuzzy scan assigns to one column, if any. -/
def fuzzyScore (searchTerm searchClean : String) (colLower colClean : String) :
    Option Nat :=
  if colLower = searchTerm then some 100
  else if isSubstrS searchTerm colLower then some 80
  else if isSubstrS colLower searchTerm then some 70
  else if colClean = searchClean then some 90
  else if isSubstrS searchClean colClean then some 60
  else none

/-- The un-cached fuzzy scan over every `(table, column)` pair
(`_fuzzy_search` without its cache wrapper). -/
def fuzzyScan (env : Env) (searchTerm : String) : List ColInfo :=
  let searchClean := replaceS (replaceS searchTerm "_" "") " " ""
  let ms := (tableColumns env).foldl
    (fun acc tc =>
      tc.2.foldl
        (fun acc col =>
          let colLower := lowerS col
          let colClean := replaceS colLower "_" ""
          match fuzzyScore searchTerm searchClean colLower colClean with
          | some sc => acc ++ [{ ci := { table := tc.1, column := col }, score := sc }]
          | none => acc)
        acc)
    []
  (sortScoreDesc ms).map ScoredCI.ci

/-- `QueryParser._fuzzy_search`: cached fuzzy scan; results are memoized while
the cache holds fewer than 1000 entries. -/
def fuzzySearch (env : Env) (cache : Cache) (searchTerm : String) :
    List ColInfo × Cache :=
  match alookup cache searchTerm with
  | some r => (r, cache)
  | none =>
    let r := fuzzyScan env searchTerm
    (r, if cache.length < 1000 then aset cache searchTerm r else cache)

/-- Core business tables from `_select_best_match`. -/
def coreTables : List String :=
  ["job", "job_detail", "job_schedule", "talent", "company", "payment"]

/-- The composite disambiguation score of `_select_best_match` for one match. -/
def bestMatchScore (env : Env) (searchTerm : String) (preferTable : Option String)
    (m : ColInfo) : Nat :=
  let table := lowerS m.table
  let searchParts := splitOnS (lowerS searchTerm) "_"
  let s1 := match preferTable with
    | some pt => if pt ≠ "" ∧ table = lowerS pt then 100 else 0
    | none => 0
  let s2 := match searchParts.head? with
    | some p0 => if table = p0 then 50 else if beginsWith table p0 then 30 else 0
    | none => 0
  let s3 := if coreTables.contains table then 20 else 0
  let s4 := if amem env.relations table then 10 else 0
  let s5 := if lowerS m.column = searchTerm then 5 else 0
  s1 + s2 + s3 + s4 + s5

/-- `QueryParser._select_best_match`: score every candidate, stable-sort
descending, take the best. -/
def selectBestMatch (env : Env) (ms : List ColInfo) (searchTerm : String)
    (preferTable : Option String) : Option ColInfo :=
  match ms with
  | [] => none
  | _ =>
    let scored := ms.map
      (fun m => ({ ci := m, score := bestMatchScore env searchTerm preferTable m } :
        ScoredCI))
    ((sortScoreDesc scored).map ScoredCI.ci).head?

/-- The explicit `table.column` branch of `find_column` (step 1): the left
part is a table-name prefix, the right part a column within that table. -/
def dotSearch (env : Env) (cp : String) : Option ColInfo :=
  match split1S cp "." with
  | none => none
  | some (tableHint, colName) =>
    dotScan (tableColumns env) tableHint colName
where
  dotScan : List (String × List String) → String → String → Option ColInfo
    | [], _, _ => none
    | (table, cols) :: rest, tableHint, colName =>
      if lowerS table = tableHint ∨ beginsWith (lowerS table) tableHint then
        match cols.find? (fun c =>
            lowerS c = colName ∨
            replaceS (lowerS c) "_" "" = replaceS colName "_" "") with
        | some c => some { table := table, column := c }
        | none => dotScan rest tableHint colName
      else dotScan rest tableHint colName

/-- Shared tail of `find_column`: zero matches fail, a single match returns,
several go through disambiguation. -/
def pickMatch (env : Env) (ms : List ColInfo) (searchTerm : String)
    (preferTable : Option String) : Option ColInfo :=
  match ms with
  | [] => none
  | [m] => some m
  | _ => selectBestMatch env ms searchTerm preferTable

/-- `QueryParser.find_column`: explicit qualification, exact key, underscore
to space, underscore stripped, then cached fuzzy search; multiple candidates
are disambiguated with `preferTable`. -/
def findColumn (env : Env) (cache : Cache) (colPart : String)
    (preferTable : Option String) : Option ColInfo × Cache :=
  let cp := lowerS (stripS colPart)
  match (if hasChar cp '.' then dotSearch env cp else none) with
  | some ci => (some ci, cache)
  | none =>
    let m0 := getMatches env cp
    let m1 :=
      if m0.isEmpty then
        let cpSpace := replaceS cp "_" " "
        if cpSpace ≠ cp then getMatches env cpSpace else []
      else m0
    let m2 := if m1.isEmpty then getMatches env (replaceS cp "_" "") else m1
    if m2.isEmpty then
      let (fm, cache') := fuzzySearch env cache cp
      (pickMatch env fm cp preferTable, cache')
    else (pickMatch env m2 cp preferTable, cache)

/-- `QueryParser.find_all_columns`: exact key, underscore to space, fuzzy. -/
def findAllColumns (env : Env) (cache : Cache) (colPart : String) :
    List ColInfo × Cache :=
  let cp := lowerS (stripS colPart)
  let m0 := getMatches env cp
  let m1 := if m0.isEmpty then getMatches env (replaceS cp "_" " ") else m0
  if m1.isEmpty then fuzzySearch env cache cp else (m1, cache)

/-- The cache-independent disambiguation tail of `find_column_for_base`
(steps 5-6 of the source: prefer the base table, then its related tables,
then any joinable table, then the generic best match). -/
def fcbPick (env : Env) (ms : List ColInfo) (cp : String)
    (baseTable : Option String) : Option ColInfo :=
  match ms with
  | [] => none
  | [m] => some m
  | _ =>
    match baseTable with
    | some b =>
      if b = "" then selectBestMatch env ms cp baseTable
      else
      match ms.find? (fun m => m.table = b) with
      | some m => some m
      | none =>
        let related := getRelatedTables env b
        match ms.find? (fun m => amem related m.table) with
        | some m => some m
        | none =>
          match ms.find? (fun m => (findJoinPath env b m.table).isSome) with
          | some m => some m
          | none => selectBestMatch env ms cp baseTable
    | none => selectBestMatch env ms cp baseTable

/-- `QueryParser.find_column_for_base`: like `find_column` but preferring the
base table itself, directly related tables, then any joinable table. -/
def findColumnForBase (env : Env) (cache : Cache) (colPart : String)
    (baseTable : Option String) : Option ColInfo × Cache :=
  let cp := lowerS (stripS colPart)
  if hasChar cp '.' then findColumn env cache cp none
  else
    let m0 := getMatches env cp
    let m1 :=
      if m0.isEmpty then
        let cpSpace := replaceS cp "_" " "
        if cpSpace ≠ cp then getMatches env cpSpace else []
      else m0
    let m2 :=
      if m1.isEmpty then
        let cpUnd := replaceS cp " " "_"
        if cpUnd ≠ cp then getMatches env cpUnd else []
      else m1
    let (ms, cache') :=
      if m2.isEmpty then fuzzySearch env cache cp else (m2, cache)
    (fcbPick env ms cp baseTable, cache')

/-- `QueryParser._get_column_type` (lower-cased declared type, `""` if unknown). -/
def getColumnType (env : Env) (table column : String) : String :=
  match ((alookup env.schema table).getD []).find?
      (fun c => lowerS c.name = lowerS column) with
  | some c => lowerS c.typ
  | none => ""

/-- `QueryParser._column_exists`. -/
def columnExists (env : Env) (table column : String) : Bool :=
  (((alookup env.schema table).getD []).find?
    (fun c => lowerS c.name = lowerS column)).isSome

/-- `QueryParser.find_boolean_column_for_status` for one status value. -/
def findBooleanOne (env : Env) (table : String) (boolCols isCols : List String)
    (statusValRaw : String) : Option (ColInfo × Bool) :=
  let statusVal := lowerS (stripS statusValRaw)
  let viaMapping : Option (ColInfo × Bool) :=
    match alookup env.config.status_mappings statusVal with
    | some (boolColName, boolValue) =>
      if boolCols.contains boolColName then
        some ({ table := table, column := boolColName }, boolValue)
      else none
    | none => none
  match viaMapping with
  | some r => some r
  | none =>
    let viaNot : Option (ColInfo × Bool) :=
      if beginsWith statusVal "not_" then
        let baseStatus := dropS statusVal 4
        let viaNotMapping : Option (ColInfo × Bool) :=
          match alookup env.config.status_mappings baseStatus with
          | some (boolColName, _) =>
            if boolCols.contains boolColName then
              some ({ table := table, column := boolColName }, false)
            else none
          | none => none
        match viaNotMapping with
        | some r => some r
        | none =>
          match isCols.find? (fun c => lowerS c = "is_" ++ baseStatus) with
          | some c => some ({ table := table, column := c }, false)
          | none => none
      else none
    match viaNot with
    | some r => some r
    | none =>
      match isCols.find? (fun c => lowerS c = "is_" ++ statusVal) with
      | some c => some ({ table := table, column := c }, true)
      | none =>
        match isCols.find? (fun c =>
            let colSuffix := replaceS (lowerS c) "is_" ""
            isSubstrS statusVal colSuffix ∨ beginsWith colSuffix statusVal) with
        | some c => some ({ table := table, column := c }, true)
        | none => none

/-- `QueryParser.find_boolean_column_for_status`: collect the resolutions of
every status value (values with no resolution are skipped); the source
returns `None` for an empty list, which callers test by truthiness. -/
def findBooleanColumnForStatus (env : Env) (table : String)
    (statusValues : List String) : List (ColInfo × Bool) :=
  let columns := (alookup env.schema table).getD []
  let boolCols := (columns.filter (fun c => c.typ = "boolean" ∨ c.typ = "bool")).map
    Col.name
  let isCols := boolCols.filter (fun c => beginsWith (lowerS c) "is_")
  statusValues.foldl
    (fun acc v =>
      match findBooleanOne env table boolCols isCols v with
      | some r => acc ++ [r]
      | none => acc)
    []

/-- `QueryParser._detect_optimal_base_table`: prefer job, job_detail,
job_schedule among the select columns' tables, else keep the current base. -/
def detectOptimalBaseTable (selectColumns : List SelCol) (currentBase : Option String) :
    Option String :=
  let tablesInQuery := selectColumns.map SelCol.table
  match ["job", "job_detail", "job_schedule"].find? tablesInQuery.contains with
  | some t => some t
  | none => currentBase

/-! ## Regex machinery (`re.split(r'\s+and\s+|,')`, `re.split(r'\s+to\s+')`) -/

/-- Length of a `\s+WORD\s+` match starting at the head of `l` (case-insensitive
on the word, greedy whitespace runs), or `none`. -/
def wordSepLen (word : List Char) (l : List Char) : Option Nat :=
  if (l.takeWhile isWsChar).length = 0 then none
  else if word.isPrefixOf ((l.drop (l.takeWhile isWsChar).length).map Char.toLower) then
    if (((l.drop (l.takeWhile isWsChar).length).drop word.length).takeWhile
        isWsChar).length = 0 then none
    else some ((l.takeWhile isWsChar).length + word.length +
      (((l.drop (l.takeWhile isWsChar).length).drop word.length).takeWhile
        isWsChar).length)
  else none

/-- A successful separator match consumes at least one and at most all characters. -/
theorem wordSepLen_bounds (word l : List Char) (n : Nat)
    (h : wordSepLen word l = some n) : 0 < n ∧ n ≤ l.length := by
  unfold wordSepLen at h
  split_ifs at h with h1 h2 h3
  · injection h with h
    subst h
    refine ⟨by omega, ?_⟩
    have hw1 : (l.takeWhile isWsChar).length ≤ l.length :=
      List.IsPrefix.length_le (List.takeWhile_prefix _)
    have hword : word.length ≤ (l.drop (l.takeWhile isWsChar).length).length := by
      have hp := List.IsPrefix.length_le (List.isPrefixOf_iff_prefix.mp h2)
      simpa using hp
    have hw2 : (((l.drop (l.takeWhile isWsChar).length).drop word.length).takeWhile
        isWsChar).length ≤
        ((l.drop (l.takeWhile isWsChar).length).drop word.length).length :=
      List.IsPrefix.length_le (List.takeWhile_prefix _)
    simp only [List.length_drop] at hword hw2
    omega

/-- The fuel-driven shared scanner of the two `re.split` calls: at every
position a `\s+WORD\s+` separator is tried first, then (when `splitComma`
is set) a comma; unmatched characters accumulate into the current piece.
Every step consumes at least one input character, so the `l.length` fuel
used by the wrapper below never runs out. -/
def reSplitFuel (word : List Char) (splitComma : Bool) :
    Nat → List Char → List Char → List String
  | _, [], acc => [⟨acc.reverse⟩]
  | 0, _ :: _, acc => [⟨acc.reverse⟩]
  | fuel + 1, c :: t, acc =>
    match wordSepLen word (c :: t) with
    | some n =>
      (⟨acc.reverse⟩ : String) :: reSplitFuel word splitComma fuel ((c :: t).drop n) []
    | none =>
      if splitComma ∧ c = ',' then
        (⟨acc.reverse⟩ : String) :: reSplitFuel word splitComma fuel t []
      else reSplitFuel word splitComma fuel t (c :: acc)

/-- The scanner at its sufficient fuel. -/
def reSplitAux (word : List Char) (splitComma : Bool) (l : List Char)
    (acc : List Char) : List String :=
  reSplitFuel word splitComma l.length l acc

/-- `re.split(r'\s+and\s+|,', conditions_part, flags=re.IGNORECASE)`:
the WHERE clause split of `QueryParser.parse`. -/
def splitConditions (s : String) : List String :=
  reSplitAux ("and".data) true s.data []

/-- `re.split(r'\s+to\s+', range_part, flags=re.IGNORECASE)`. -/
def splitToKeyword (s : String) : List String :=
  reSplitAux ("to".data) false s.data []

/-! ## Date parsing (`parse_date`) -/

/-- Split a character list on a separator character (keeping empty pieces). -/
def splitChar (l : List Char) (sep : Char) : List (List Char) :=
  match l with
  | [] => [[]]
  | c :: t =>
    if c = sep then [] :: splitChar t sep
    else
      match splitChar t sep with
      | [] => [[c]]
      | p :: ps => (c :: p) :: ps

/-- Numeric value of a digit string. -/
def natOfDigits (l : List Char) : Nat :=
  l.foldl (fun n c => n * 10 + (c.toNat - 48)) 0

/-- Gregorian month lengths (Python `datetime` validates real dates). -/
def daysInMonth (y m : Nat) : Nat :=
  if m = 2 then (if (y % 4 = 0 ∧ y % 100 ≠ 0) ∨ y % 400 = 0 then 29 else 28)
  else if m = 4 ∨ m = 6 ∨ m = 9 ∨ m = 11 then 30 else 31

/-- A valid `datetime.date` triple (year 1-9999). -/
def validYMD (y m d : Nat) : Bool :=
  1 ≤ y ∧ y ≤ 9999 ∧ 1 ≤ m ∧ m ≤ 12 ∧ 1 ≤ d ∧ d ≤ daysInMonth y m

/-- A `strptime` year/month/day field: all digits, within the length limits. -/
def dateField (l : List Char) (maxLen : Nat) : Option Nat :=
  if l.length = 0 ∨ maxLen < l.length ∨ ¬ l.all Char.isDigit then none
  else some (natOfDigits l)

/-- One separator-based `strptime` format: `ymd` selects Y-M-D vs D-M-Y order. -/
def tryFmtSep (l : List Char) (sep : Char) (ymd : Bool) : Option (Nat × Nat × Nat) :=
  match splitChar l sep with
  | [a, b, c] =>
    let fields := if ymd then (dateField a 4, dateField b 2, dateField c 2)
      else (dateField c 4, dateField b 2, dateField a 2)
    match fields with
    | (some y, some m, some d) => if validYMD y m d then some (y, m, d) else none
    | _ => none
  | _ => none

/-- The compact `%Y%m%d` format (eight digits, split 4/2/2, which is the
greedy `strptime` match for an 8-digit string). -/
def tryFmtCompact (l : List Char) : Option (Nat × Nat × Nat) :=
  if l.length = 8 ∧ l.all Char.isDigit then
    let y := natOfDigits (l.take 4)
    let m := natOfDigits ((l.drop 4).take 2)
    let d := natOfDigits (l.drop 6)
    if validYMD y m d then some (y, m, d) else none
  else none

/-- Zero-pad to two digits (`%m`, `%d`). -/
def pad2 (n : Nat) : String :=
  if n < 10 then "0" ++ toString n else toString n

/-- Zero-pad to four digits (`%Y`). -/
def pad4 (n : Nat) : String :=
  if n < 10 then "000" ++ toString n
  else if n < 100 then "00" ++ toString n
  else if n < 1000 then "0" ++ toString n
  else toString n

/-- `parse_date`: try the source's `DATE_FORMATS` in order, reformat to
`YYYY-MM-DD` on success, return the stripped original on failure. -/
def parseDateS (dateStr : String) : String :=
  let ds := stripS dateStr
  let l := ds.data
  let attempts : List (Option (Nat × Nat × Nat)) :=
    [tryFmtSep l '-' true, tryFmtSep l '-' false, tryFmtSep l '/' false,
     tryFmtSep l '/' true, tryFmtSep l '.' false, tryFmtCompact l]
  match attempts.findSome? id with
  | some (y, m, d) => pad4 y ++ "-" ++ pad2 m ++ "-" ++ pad2 d
  | none => ds

/-! ## Identifier sanitization (`sanitize_identifier`) -/

/-- `VALID_IDENTIFIER_PATTERN`: `^[a-zA-Z_][a-zA-Z0-9_]*$`. -/
def validIdent (s : String) : Bool :=
  match s.data with
  | [] => false
  | c :: t =>
    (c.isAlpha ∨ c = '_') ∧ t.all (fun c => c.isAlphanum ∨ c = '_')

/-- `sanitize_identifier` as a checked result: the source raises `ValueError`
for an empty or pattern-violating name. -/
def sanitizeIdentifier (name : String) : Except String String :=
  if name = "" then .error "Identifier tidak boleh kosong"
  else if ¬ validIdent name then
    .error ("Invalid identifier: '" ++ name ++
      "'. Hanya huruf, angka, dan underscore yang diizinkan.")
  else .ok name

/-! ## Condition processing (`_process_condition`, `_add_condition`) -/

/-- The quoted `"table"."column"` reference interpolated into fragments. -/
def qref (table column : String) : String :=
  "\"" ++ table ++ "\".\"" ++ column ++ "\""

/-- The additions one condition makes: WHERE fragments, parameters, tables. -/
abbrev CondDelta : Type := List String × List Param × List String

/-- Python truthiness of the optional base table (`if base_table:`). -/
def pyTruthy (o : Option String) : Bool :=
  match o with
  | some s => s ≠ ""
  | none => false

/-- Character-list split on `/` or `|` (the class `[/|]`). -/
def splitValChars : List Char → List (List Char)
  | [] => [[]]
  | c :: t =>
    if c = '/' ∨ c = '|' then [] :: splitValChars t
    else
      match splitValChars t with
      | [] => [[c]]
      | p :: ps => (c :: p) :: ps

/-- `re.split(r'[/|]', val_part)`. -/
def splitValSeps (s : String) : List String :=
  (splitValChars s.data).map (fun l => (⟨l⟩ : String))

/-- The multi-value split of `_add_condition` (`/` or `|` separated). -/
def condValues (valPart : String) : List String :=
  if hasChar valPart '/' ∨ hasChar valPart '|' then
    ((splitValSeps valPart).filter (fun v => stripS v ≠ "")).map
      (fun v => lowerS (stripS v))
  else [lowerS valPart]

/-- The date/timestamp family types of `_add_condition`. -/
def tsFamily : List String :=
  ["timestamp", "timestamptz", "date", "timestamp with time zone",
   "timestamp without time zone"]

/-- The text family types of `_add_condition`. -/
def txFamily : List String :=
  ["text", "varchar", "character varying", "char", "character", "name"]

/-- Status-like values recognized on date/timestamp columns. -/
def tsStatusValues : List String :=
  ["completed", "done", "finished", "yes", "true", "ada"]

/-- Empty-like values recognized on date/timestamp columns. -/
def tsEmptyValues : List String :=
  ["none", "null", "empty", "kosong", "belum", "no", "false", "tidak"]

/-- The date/timestamp special cases of `_add_condition`: a status-like value
becomes an `is_*` boolean test or `IS NOT NULL`; an empty-like value becomes
`IS NULL`; anything else falls through (`none`). -/
def tsSpecial (env : Env) (ci : ColInfo) (colRef colName : String)
    (values : List String) : Option CondDelta :=
  match values with
  | [v] =>
    if tsStatusValues.contains v then
      let baseColName :=
        replaceS (replaceS (replaceS colName "_on" "") "_date" "") "_at" ""
      match (["is_" ++ baseColName, "is_" ++ baseColName ++ "ed"]).find?
          (columnExists env ci.table) with
      | some boolCol =>
        some ([qref ci.table boolCol ++ " = %s"], [.b true], [ci.table])
      | none => some ([colRef ++ " IS NOT NULL"], [], [ci.table])
    else if tsEmptyValues.contains v then
      some ([colRef ++ " IS NULL"], [], [ci.table])
    else none
  | _ => none

/-- The text / default tail of `_add_condition` (after the date/timestamp
special cases): text columns get `ILIKE`, other types get `IN` or the
explicit operator.  `values = []` models the source's `IndexError` on
`values[0]`. -/
def regularTail (ci : ColInfo) (colRef colType op : String) (values : List String) :
    Except String CondDelta :=
  if txFamily.contains colType then
    match values with
    | [] => .error "IndexError: list index out of range"
    | [v] => .ok ([colRef ++ " ILIKE %s"], [.s ("%" ++ v ++ "%")], [ci.table])
    | _ =>
      let ors := values.map (fun _ => colRef ++ " ILIKE %s")
      let ps := values.map (fun v => Param.s ("%" ++ v ++ "%"))
      .ok (["(" ++ joinSep " OR " ors ++ ")"], ps, [ci.table])
  else
    match values with
    | [] => .error "IndexError: list index out of range"
    | [v] => .ok ([colRef ++ " " ++ op ++ " %s"], [.s v], [ci.table])
    | _ =>
      let placeholders := joinSep ", " (values.map (fun _ => "%s"))
      .ok ([colRef ++ " IN (" ++ placeholders ++ ")"], values.map Param.s, [ci.table])

/-- `QueryParser._add_condition`. -/
def addCondition (env : Env) (cache : Cache) (colPart valPart op : String)
    (base : Option String) : Except String CondDelta × Cache :=
  let colPartLower := lowerS colPart
  let values := condValues valPart
  let isStatusCondition := (statusKeywords env).any (fun kw => isSubstrS kw colPartLower)
  if isStatusCondition && pyTruthy base then
    let b := base.getD ""
    let boolResults := findBooleanColumnForStatus env b values
    if boolResults.isEmpty then
      (.error ("Status '" ++ joinSep "/" values ++ "' tidak dikenali."), cache)
    else
      let ors := boolResults.map (fun r => qref r.1.table r.1.column ++ " = %s")
      let ps := boolResults.map (fun r => Param.b r.2)
      let ts := boolResults.map (fun r => r.1.table)
      let wp := match ors with
        | [o] => o
        | _ => "(" ++ joinSep " OR " ors ++ ")"
      (.ok ([wp], ps, ts), cache)
  else
    match findColumn env cache colPart base with
    | (none, cache') => (.ok ([], [], []), cache')
    | (some ci, cache') =>
      let colRef := qref ci.table ci.column
      let colName := lowerS ci.column
      let colType := getColumnType env ci.table ci.column
      if tsFamily.contains colType then
        match tsSpecial env ci colRef colName values with
        | some d => (.ok d, cache')
        | none => (regularTail ci colRef colType op values, cache')
      else (regularTail ci colRef colType op values, cache')

/-- The tail of `_process_condition` after the date-range branch:
`IS [NOT] NULL`, the comparison-operator scan, then the space-separated
fallback. -/
def condTail (env : Env) (cache : Cache) (cond condLower : String)
    (base : Option String) : Except String CondDelta × Cache :=
  match findSubS " is not null" condLower with
  | some idx =>
    let colPart := stripS (takeS cond idx)
    (match findColumn env cache colPart base with
     | (some ci, cache') =>
       (.ok ([qref ci.table ci.column ++ " IS NOT NULL"], [], [ci.table]), cache')
     | (none, cache') => (.ok ([], [], []), cache'))
  | none =>
  match findSubS " is null" condLower with
  | some idx =>
    let colPart := stripS (takeS cond idx)
    (match findColumn env cache colPart base with
     | (some ci, cache') =>
       (.ok ([qref ci.table ci.column ++ " IS NULL"], [], [ci.table]), cache')
     | (none, cache') => (.ok ([], [], []), cache'))
  | none =>
  match (([">=", "<=", "!=", "<>", ">", "<", "="] : List String).find?
      (fun op => isSubstrS op cond)) with
  | some op =>
    (match split1S cond op with
     | some (colRaw, valRaw) =>
       addCondition env cache (stripS colRaw)
         (stripCharsS (stripS valRaw) ['\'', '"']) op base
     | none => (.ok ([], [], []), cache))
  | none =>
    match splitWs1 cond with
    | [colPart, valPart] => addCondition env cache colPart (stripS valPart) "=" base
    | _ => (.ok ([], [], []), cache)

/-- `QueryParser._process_condition`: the date-range branch first (falling
through, with the cache it may have touched, when it does not complete),
then `condTail`. -/
def processCondition (env : Env) (cache : Cache) (cond : String)
    (base : Option String) : Except String CondDelta × Cache :=
  let condLower := lowerS cond
  if isSubstrS ".." cond ∨ isSubstrS " to " condLower then
    if hasChar cond '=' then
      match split1S cond "=" with
      | some (cpRaw, rpRaw) =>
        let colPart := stripS cpRaw
        let rangePart := stripS rpRaw
        let dateParts : List String :=
          if isSubstrS ".." rangePart then
            match split1S rangePart ".." with
            | some (a, b) => [a, b]
            | none => []
          else splitToKeyword rangePart
        (match dateParts with
         | [a, b] =>
           let startDate := parseDateS (stripCharsS (stripS a) ['\'', '"'])
           let endDate := parseDateS (stripCharsS (stripS b) ['\'', '"'])
           (match findColumn env cache colPart base with
            | (some ci, cache') =>
              (.ok ([qref ci.table ci.column ++
                  "::date BETWEEN %s::date AND %s::date"],
                [.s startDate, .s endDate], [ci.table]), cache')
            | (none, cache') => condTail env cache' cond condLower base)
         | _ => condTail env cache cond condLower base)
      | none => condTail env cache cond condLower base
    else condTail env cache cond condLower base
  else condTail env cache cond condLower base

/-! ## Query parsing (`_parse_order_where`, `parse`) -/

/-- The structured result of `QueryParser.parse`. -/
structure Parsed where
  select_columns : List SelCol
  base_table : Option String
  where_parts : List String
  params : List Param
  where_tables : List String
  order_by : Option String
  order_dir : String
deriving DecidableEq, Repr

/-- `QueryParser._parse_order_where`: returns
`(columns_part, conditions_part, order_by, order_dir)`. -/
def parseOrderWhere (queryPart : String) : String × Option String × Option String × String :=
  let (qp, orderBy, orderDir) :=
    match findSubS " order by " (lowerS queryPart) with
    | some idx =>
      let orderPart := stripS (dropS queryPart (idx + 10))
      let qp := stripS (takeS queryPart idx)
      let orderParts := splitWsAll orderPart
      match orderParts with
      | [] => (qp, none, "ASC")
      | p0 :: restParts =>
        let dir :=
          if restParts ≠ [] ∧
              (upperS (orderParts.getLastD "") = "ASC" ∨
               upperS (orderParts.getLastD "") = "DESC") then
            upperS (orderParts.getLastD "")
          else "ASC"
        (qp, some p0, dir)
    | none => (queryPart, none, "ASC")
  match ([" where ", " when "] : List String).findSome?
      (fun kw => (findSubS kw (lowerS qp)).map (fun idx => (kw, idx))) with
  | some (kw, idx) =>
    (stripS (takeS qp idx), some (stripS (dropS qp (idx + kw.data.length))),
     orderBy, orderDir)
  | none => (qp, none, orderBy, orderDir)

/-- The three surface syntaxes of `parse` (first match wins): `primary` form,
colon form, legacy `show` form.  Returns the (possibly empty) primary column
token when one is syntactically present, plus the pieces of the query. -/
def parseFormat (qt ql : String) :
    Except String (Option String × String × Option String × Option String × String) :=
  if beginsWith ql "primary " then
    let queryPart := stripS (dropS qt 8)
    match findSubS " show " (lowerS queryPart) with
    | none => .error "Format: primary [kolom] show [kolom1,kolom2] where [kondisi]"
    | some showIdx =>
      let primaryColumn := stripS (takeS queryPart showIdx)
      let rest := stripS (dropS queryPart (showIdx + 6))
      let (colsPart, condsPart, ob, od) := parseOrderWhere rest
      .ok (some primaryColumn, colsPart, condsPart, ob, od)
  else if hasChar qt ':' ∧ ¬ beginsWith ql "show " then
    match split1S qt ":" with
    | some (p, q) =>
      let (colsPart, condsPart, ob, od) := parseOrderWhere (stripS q)
      .ok (some (stripS p), colsPart, condsPart, ob, od)
    | none => .error "unreachable: ':' was tested above"
  else if beginsWith ql "show " then
    let (colsPart, condsPart, ob, od) := parseOrderWhere (stripS (dropS qt 5))
    .ok (none, colsPart, condsPart, ob, od)
  else
    .error ("Format yang didukung:\n" ++
      "1. primary job_number show talent_name,company where status=completed\n" ++
      "2. job_number: talent_name,company where status=completed\n" ++
      "3. show job_number,talent_name where status=completed")

/-- First-occurrence de-duplication (the `list(set(...))` of the ambiguity
message, modelled with insertion order). -/
def dedupFirst (l : List String) : List String :=
  l.foldl sadd []

/-- The aggregate functions accepted as `fn:` prefixes. -/
def aggregateFuncs : List String := ["count", "sum", "avg", "min", "max"]

/-- The select-column loop of `parse`: resolve each comma-separated entry
(with optional aggregate prefix) via `find_column_for_base`, fixing the base
table from the first resolved column when no primary was given. -/
def resolveSelCols (env : Env) (cache : Cache) (cols : List String)
    (sel : List SelCol) (base : Option String) :
    Except String (List SelCol × Option String) × Cache :=
  match cols with
  | [] => (.ok (sel, base), cache)
  | colStrRaw :: rest =>
    let colStr := stripS colStrRaw
    if colStr = "" then resolveSelCols env cache rest sel base
    else
      let (aggFunc, colStr2) :=
        if hasChar colStr ':' then
          match split1S colStr ":" with
          | some (p0, p1) =>
            if aggregateFuncs.contains (lowerS p0) then (some (upperS p0), stripS p1)
            else (none, colStr)
          | none => (none, colStr)
        else (none, colStr)
      match findColumnForBase env cache colStr2 base with
      | (none, cache') =>
        (match findAllColumns env cache' colStr2 with
         | ([], cache'') =>
           (.error ("Kolom '" ++ colStr2 ++ "' tidak ditemukan"), cache'')
         | (allM, cache'') =>
           let tables := dedupFirst (allM.map ColInfo.table)
           (.error ("Kolom '" ++ colStr2 ++ "' ambigu, ada di tabel: " ++
             joinSep ", " tables ++ ". Gunakan format table.column"), cache''))
      | (some ci, cache') =>
        let sc : SelCol := { table := ci.table, column := ci.column, aggregate := aggFunc }
        let base' := if base.isNone then some ci.table else base
        resolveSelCols env cache' rest (sel ++ [sc]) base'

/-- The WHERE-condition loop of `parse`. -/
def processConds (env : Env) (cache : Cache) (conds : List String)
    (base : Option String) (acc : CondDelta) : Except String CondDelta × Cache :=
  match conds with
  | [] => (.ok acc, cache)
  | c :: rest =>
    let c' := stripS c
    if c' = "" then processConds env cache rest base acc
    else
      match processCondition env cache c' base with
      | (.ok (wps, ps, wts), cache') =>
        let (aw, ap, at') := acc
        processConds env cache' rest base (aw ++ wps, ap ++ ps, sunion at' wts)
      | (.error e, cache') => (.error e, cache')

/-- `QueryParser.parse`. -/
def parseQ (env : Env) (cache : Cache) (queryText : String) :
    Except String Parsed × Cache :=
  let qt := stripS queryText
  let ql := lowerS qt
  match parseFormat qt ql with
  | .error e => (.error e, cache)
  | .ok (primaryColumn, colsPart, condsPart, orderBy, orderDir) =>
    let primaryStep : Except String (List SelCol × Option String) × Cache :=
      match primaryColumn with
      | some p =>
        if p ≠ "" then
          match findColumn env cache p none with
          | (none, cache') =>
            (.error ("Primary kolom '" ++ p ++ "' tidak ditemukan"), cache')
          | (some ci, cache') =>
            (.ok ([{ table := ci.table, column := ci.column, aggregate := none }],
              some ci.table), cache')
        else (.ok ([], none), cache)
      | none => (.ok ([], none), cache)
    match primaryStep with
    | (.error e, cache1) => (.error e, cache1)
    | (.ok (sel0, base0), cache1) =>
      match resolveSelCols env cache1 (splitOnS colsPart ",") sel0 base0 with
      | (.error e, cache2) => (.error e, cache2)
      | (.ok (sel, base1), cache2) =>
        if sel.isEmpty then (.error "Tidak ada kolom yang dipilih", cache2)
        else
          let base2 :=
            if primaryColumn.isNone then detectOptimalBaseTable sel base1 else base1
          match (match condsPart with
                 | some cp => processConds env cache2 (splitConditions cp) base2
                     ([], [], [])
                 | none => (.ok (([], [], []) : CondDelta), cache2)) with
          | (.error e, cache3) => (.error e, cache3)
          | (.ok (wps, ps, wts), cache3) =>
            (.ok { select_columns := sel, base_table := base2, where_parts := wps,
                   params := ps, where_tables := wts, order_by := orderBy,
                   order_dir := orderDir }, cache3)

/-! ## SQL builder (`build_sql`, `_build_joins`, `_build_default_filters`) -/

/-- `\w` of the `re.findall(r'"(\w+)"."(\w+)"', part)` scan (ASCII model). -/
def isWordCh (c : Char) : Bool := c.isAlphanum ∨ c = '_'

/-- Try to match `"(\w+)"."(\w+)"` at the head of `l` (the unescaped `.`
matches any single character); returns the two groups and the number of
characters consumed. -/
def matchTCRef (l : List Char) : Option (String × String × Nat) :=
  match l with
  | '"' :: rest =>
    let w1 := rest.takeWhile isWordCh
    if w1.isEmpty then none
    else
      match rest.drop w1.length with
      | '"' :: _ :: '"' :: rest2 =>
        let w2 := rest2.takeWhile isWordCh
        if w2.isEmpty then none
        else
          match rest2.drop w2.length with
          | '"' :: _ => some (⟨w1⟩, ⟨w2⟩, w1.length + w2.length + 5)
          | _ => none
      | _ => none
  | _ => none

/-- The fuel-driven `re.findall` scan of the `"table"."column"` pattern:
leftmost, non-overlapping matches, scanning left to right (a match consumes
at least five characters, a failure one, so `l.length` fuel suffices). -/
def findallFuel : Nat → List Char → List (String × String)
  | _, [] => []
  | 0, _ :: _ => []
  | fuel + 1, c :: t =>
    match matchTCRef (c :: t) with
    | some (tb, cl, n) => (tb, cl) :: findallFuel fuel (t.drop (n - 1))
    | none => findallFuel fuel t

/-- `re.findall` of the `"table"."column"` pattern at its sufficient fuel. -/
def findallTC (l : List Char) : List (String × String) :=
  findallFuel l.length l

/-- `QueryParser._build_default_filters`: for every joined table, apply each
configured filter whose `table.column` is not already mentioned by an
existing WHERE fragment; returns the fragments, parameters and
human-readable applied-filter descriptions. -/
def buildDefaultFilters (env : Env) (tables : List String)
    (existingWhereParts : List String) : List String × List Param × List String :=
  let existing0 := existingWhereParts.foldl
    (fun s part =>
      (findallTC part.data).foldl (fun s tc => sadd s (tc.1 ++ "." ++ tc.2)) s)
    []
  let step := fun (acc : List String × List Param × List String × List String)
      (table : String) =>
    match alookup env.config.default_filters table with
    | none => acc
    | some flts =>
      flts.foldl
        (fun acc flt =>
          let (wps, ps, applied, existing) := acc
          let key := table ++ "." ++ flt.column
          if existing.contains key then acc
          else
            let op := flt.opt_op.getD "="
            (wps ++ [qref table flt.column ++ " " ++ op ++ " %s"],
             ps ++ [flt.value],
             applied ++ [table ++ "." ++ flt.column ++ op ++ paramStr flt.value],
             sadd existing key))
        acc
  let (wps, ps, applied, _) := tables.foldl step ([], [], [], existing0)
  (wps, ps, applied)

/-- One `LEFT JOIN` clause in the direction recorded for the edge. -/
def joinClause (current nextTable : String) (ji : JoinInfo) : String :=
  if ji.join_type = "outgoing" then
    "LEFT JOIN \"" ++ nextTable ++ "\" ON \"" ++ current ++ "\".\"" ++
      ji.base_column ++ "\" = \"" ++ nextTable ++ "\".\"" ++ ji.target_column ++ "\""
  else
    "LEFT JOIN \"" ++ nextTable ++ "\" ON \"" ++ nextTable ++ "\".\"" ++
      ji.target_column ++ "\" = \"" ++ current ++ "\".\"" ++ ji.base_column ++ "\""

/-- `QueryParser._build_joins`: for every needed table, walk the found join
path emitting one `LEFT JOIN` per newly joined table; when no path is found,
fall back to a direct relation in either direction. -/
def buildJoins (env : Env) (base : String) (tablesNeeded : List String) :
    List String :=
  let step := fun (acc : List String × List String) (target : String) =>
    let (clauses, joined) := acc
    if joined.contains target then acc
    else
      match findJoinPath env base target with
      | some (p0 :: prest) =>
        let (clauses', joined', _) := (p0 :: prest).foldl
          (fun (acc2 : List String × List String × String) step2 =>
            let (cl, jn, current) := acc2
            let (nextTable, ji) := step2
            if jn.contains nextTable then (cl, jn, nextTable)
            else (cl ++ [joinClause current nextTable ji], jn ++ [nextTable], nextTable))
          (clauses, joined, base)
        (clauses', joined')
      | _ =>
        let direct1 := ((alookup env.relations base).getD []).find?
          (fun rel => rel.to_table = target)
        let (clauses1, joined1) :=
          match direct1 with
          | some rel =>
            (clauses ++ ["LEFT JOIN \"" ++ target ++ "\" ON \"" ++ base ++ "\".\"" ++
              rel.from_column ++ "\" = \"" ++ target ++ "\".\"" ++ rel.to_column ++ "\""],
             joined ++ [target])
          | none => (clauses, joined)
        if joined1.contains target then (clauses1, joined1)
        else
          match ((alookup env.relations target).getD []).find?
              (fun rel => rel.to_table = base) with
          | some rel =>
            (clauses1 ++ ["LEFT JOIN \"" ++ target ++ "\" ON \"" ++ target ++ "\".\"" ++
              rel.from_column ++ "\" = \"" ++ base ++ "\".\"" ++ rel.to_column ++ "\""],
             joined1 ++ [target])
          | none => (clauses1, joined1)
  ((tablesNeeded.filter (fun t => t ≠ base)).foldl step ([], [base])).1

/-- `QueryParser._build_column_alias` (the `startswith` branch of the source
produces the same string as its `else` branch, so both are one case here). -/
def buildColumnAlias (table column : String) (usedAliases : List String) : String :=
  let colLower := lowerS column
  let tableLower := lowerS table
  let alwaysPrefixCols :=
    ["name", "id", "code", "type", "status", "description", "title", "date"]
  let alias0 :=
    if alwaysPrefixCols.contains colLower then tableLower ++ " " ++ colLower
    else replaceS colLower "_" " "
  if usedAliases.contains alias0 then tableLower ++ " " ++ replaceS colLower "_" " "
  else alias0

/-- Sanitize every select column's table and column, first failure wins. -/
def sanitizeSelCols : List SelCol → Except String Unit
  | [] => .ok ()
  | c :: rest =>
    match sanitizeIdentifier c.table with
    | .error e => .error e
    | .ok _ =>
      match sanitizeIdentifier c.column with
      | .error e => .error e
      | .ok _ => sanitizeSelCols rest

/-- `QueryParser.build_sql`: returns `(sql, params, applied_default_filters)`
or the sanitization error. -/
def buildSql (env : Env) (cache : Cache) (parsed : Parsed) (limit : Nat)
    (applyDefaultFilters : Bool) : Except String (String × List Param × List String) × Cache :=
  match sanitizeIdentifier (parsed.base_table.getD "") with
  | .error e => (.error e, cache)
  | .ok _ =>
    match sanitizeSelCols parsed.select_columns with
    | .error e => (.error e, cache)
    | .ok _ =>
      let hasAggregate := parsed.select_columns.any (fun c => c.aggregate.isSome)
      let (selectParts, groupByCols, _) := parsed.select_columns.foldl
        (fun (acc : List String × List String × List String) c =>
          let (sp, gb, used) := acc
          let colRef := qref c.table c.column
          let aliasN := buildColumnAlias c.table c.column used
          let used' := sadd used aliasN
          match c.aggregate with
          | some agg =>
            (sp ++ [agg ++ "(" ++ colRef ++ ") AS \"" ++ lowerS agg ++ "_" ++
              aliasN ++ "\""], gb, used')
          | none =>
            (sp ++ [colRef ++ " AS \"" ++ aliasN ++ "\""],
             if hasAggregate then gb ++ [colRef] else gb, used'))
        ([], [], [])
      let base := parsed.base_table.getD ""
      let sql1 := "SELECT " ++ joinSep ", " selectParts ++ "\nFROM \"" ++ base ++ "\""
      let tablesNeeded :=
        sunion (dedupFirst (parsed.select_columns.map SelCol.table)) parsed.where_tables
      let joinClauses := buildJoins env base tablesNeeded
      let sql2 :=
        if joinClauses.isEmpty then sql1 else sql1 ++ "\n" ++ joinSep "\n" joinClauses
      let (whereParts1, params1, appliedDefaults) :=
        if applyDefaultFilters ∧ ¬ env.config.default_filters.isEmpty then
          let allTables := sunion (sadd [] base) tablesNeeded
          let (dw, dp, ap) := buildDefaultFilters env allTables parsed.where_parts
          (parsed.where_parts ++ dw, parsed.params ++ dp, ap)
        else (parsed.where_parts, parsed.params, [])
      let sql3 :=
        if whereParts1.isEmpty then sql2
        else sql2 ++ "\nWHERE " ++ joinSep " AND " whereParts1
      let sql4 :=
        if groupByCols.isEmpty then sql3
        else sql3 ++ "\nGROUP BY " ++ joinSep ", " groupByCols
      let (sql5, cache') :=
        match parsed.order_by with
        | some ob =>
          (match findColumn env cache ob parsed.base_table with
           | (some ci, c') =>
             (sql4 ++ "\nORDER BY " ++ qref ci.table ci.column ++ " " ++
               parsed.order_dir, c')
           | (none, c') => (sql4, c'))
        | none => (sql4, cache)
      let sql6 := sql5 ++ "\nLIMIT " ++ toString limit
      (.ok (sql6, params1, appliedDefaults), cache')

/-- One full translation: `parse` followed by `build_sql` (with default
filters applied), threading the fuzzy cache. -/
def translateQ (env : Env) (cache : Cache) (q : String) (limit : Nat) :
    Except String (String × List Param × List String) × Cache :=
  match parseQ env cache q with
  | (.error e, c') => (.error e, c')
  | (.ok pq, c') => buildSql env c' pq limit true

/-! ## Helper lemmas: dict model -/

theorem alookup_aset_self {β : Type} (m : List (String × β)) (k : String) (v : β) :
    alookup (aset m k v) k = some v := by
  induction m with
  | nil => simp [aset, alookup]
  | cons p t ih =>
    by_cases hk : p.1 = k
    · simp [aset, alookup, hk]
    · simp [aset, alookup, hk, ih]

theorem alookup_mem {β : Type} {m : List (String × β)} {k : String} {v : β}
    (h : alookup m k = some v) : (k, v) ∈ m := by
  induction m with
  | nil => simp [alookup] at h
  | cons p t ih =>
    rcases p with ⟨k0, v0⟩
    by_cases hk : k0 = k
    · simp only [alookup, hk, if_true, Option.some.injEq] at h
      subst hk
      subst h
      exact List.mem_cons_self _ _
    · simp only [alookup, hk, if_false] at h
      exact List.mem_cons_of_mem _ (ih h)

theorem alookup_none_not_mem {β : Type} {m : List (String × β)} {k : String}
    (h : alookup m k = none) : ∀ p ∈ m, p.1 ≠ k := by
  induction m with
  | nil => simp
  | cons p t ih =>
    by_cases hk : p.1 = k
    · simp [alookup, hk] at h
    · simp only [alookup, hk, if_false] at h
      intro q hq
      rcases List.mem_cons.mp hq with hq | hq
      · subst hq; exact hk
      · exact ih h q hq

theorem mem_aset {β : Type} {m : List (String × β)} {k : String} {v : β} {p : String × β}
    (h : p ∈ aset m k v) : p ∈ m ∨ p = (k, v) := by
  induction m with
  | nil => simpa [aset] using h
  | cons q t ih =>
    by_cases hk : q.1 = k
    · simp only [aset, hk, if_true] at h
      rcases List.mem_cons.mp h with h | h
      · right; exact h
      · left; exact List.mem_cons_of_mem _ h
    · simp only [aset, hk, if_false] at h
      rcases List.mem_cons.mp h with h | h
      · left; exact h ▸ List.mem_cons_self _ _
      · rcases ih h with h' | h'
        · left; exact List.mem_cons_of_mem _ h'
        · right; exact h'

theorem aset_keys {β : Type} (m : List (String × β)) (k : String) (v : β) :
    (aset m k v).map Prod.fst = m.map Prod.fst ∨
    (aset m k v).map Prod.fst = m.map Prod.fst ++ [k] := by
  induction m with
  | nil => right; simp [aset]
  | cons p t ih =>
    by_cases hk : p.1 = k
    · left; simp [aset, hk]
    · rcases ih with h | h
      · left; simp [aset, hk, h]
      · right; simp [aset, hk, h]

theorem alookup_of_mem_nodup {β : Type} {m : List (String × β)} {k : String} {v : β}
    (hnd : (m.map Prod.fst).Nodup) (h : (k, v) ∈ m) : alookup m k = some v := by
  induction m with
  | nil => simp at h
  | cons p t ih =>
    rcases List.mem_cons.mp h with h | h
    · subst h; simp [alookup]
    · have hk : p.1 ≠ k := by
        intro he
        have : k ∈ t.map Prod.fst := List.mem_map_of_mem Prod.fst h
        rw [List.map_cons, List.nodup_cons] at hnd
        exact hnd.1 (he ▸ this)
      simp only [alookup, hk, if_false]
      exact ih (by rw [List.map_cons, List.nodup_cons] at hnd; exact hnd.2) h

/-! ## C6: composite-key collisions in the column map -/

/-- Schema with two distinct physical columns (`Name`, `NAME`) whose shared
lower-cased name makes both claim the `t_name` and `t.name` composite keys. -/
def envCollide : Env :=
  { schema := [("t", [{ name := "Name", typ := "text" },
                      { name := "NAME", typ := "text" }])],
    relations := [], config := emptyConfig }

/-- C6 counterexample: the later column (`NAME`) silently overwrites the
earlier (`Name`) under both composite keys — only one candidate survives,
contradicting "both candidates are kept". -/
theorem c6_counterexample :
    alookup (buildColumnMap envCollide) "t_name" =
      some [{ table := "t", column := "NAME" }] ∧
    alookup (buildColumnMap envCollide) "t.name" =
      some [{ table := "t", column := "NAME" }] ∧
    ({ table := "t", column := "Name" } : ColInfo) ≠
      { table := "t", column := "NAME" } := by
  refine ⟨rfl, rfl, by decide⟩

/-- C6 (amended): `_add_to_map` resets a unique key to the single newest
candidate (the later column silently wins); only non-unique keys accumulate:
an existing list without the candidate is extended, never overwritten. -/
theorem c6_theorem :
    (∀ (m : List (String × List ColInfo)) (key : String) (ci : ColInfo),
      alookup (addToMap m key ci true) key = some [ci]) ∧
    (∀ (m : List (String × List ColInfo)) (key : String) (ci : ColInfo)
        (l : List ColInfo),
      alookup m key = some l →
      l.any (fun e => e.table = ci.table ∧ e.column = ci.column) = false →
      alookup (addToMap m key ci false) key = some (l ++ [ci])) := by
  constructor
  · intro m key ci
    unfold addToMap
    match h : alookup m key with
    | none => simpa [h] using alookup_aset_self m key [ci]
    | some l => simpa [h] using alookup_aset_self m key [ci]
  · intro m key ci l hl hdup
    unfold addToMap
    rw [hl]
    simp only [hdup, if_false, Bool.false_eq_true]
    exact alookup_aset_self m key (l ++ [ci])

/-- C6 witness: both parts of the amended theorem at concrete inputs. -/
theorem c6_witness :
    alookup (addToMap [("k", [{ table := "a", column := "b" }])] "k"
      { table := "c", column := "d" } true) "k" =
      some [{ table := "c", column := "d" }] ∧
    alookup (addToMap [("k", [{ table := "a", column := "b" }])] "k"
      { table := "c", column := "d" } false) "k" =
      some [{ table := "a", column := "b" }, { table := "c", column := "d" }] := by
  constructor
  · exact c6_theorem.1 [("k", [{ table := "a", column := "b" }])] "k"
      { table := "c", column := "d" }
  · exact c6_theorem.2 [("k", [{ table := "a", column := "b" }])] "k"
      { table := "c", column := "d" } [{ table := "a", column := "b" }]
      (by decide) (by decide)

/-! ## C7: construction from an empty snapshot -/

/-- The state `QueryParser.__init__` builds (its body merely loads the config
and calls `_build_column_map` and `_build_reverse_relations`; it contains no
validation and no `raise`). -/
structure ParserState where
  column_map : List (String × List ColInfo)
  table_columns : List (String × List String)
  reverse_relations : List (String × List RevRel)
deriving DecidableEq, Repr

/-- `QueryParser.__init__` on a snapshot (construction cannot fail). -/
def mkParser (env : Env) : ParserState :=
  { column_map := buildColumnMap env,
    table_columns := tableColumns env,
    reverse_relations := reverseRelations env }

/-- C7 counterexample: constructing the index from an empty snapshot (no
tables) succeeds and yields an empty index — no `SchemaError` is raised (the
source defines no such error and `__init__` has no failure path). -/
theorem c7_counterexample :
    mkParser { schema := [], relations := [], config := emptyConfig } =
      { column_map := [], table_columns := [], reverse_relations := [] } := rfl

/-- C7 (amended): construction from an empty snapshot always succeeds; the
column map then holds exactly the configured custom aliases and the table
index is empty. -/
theorem c7_theorem (relations : List (String × List FKRel)) (config : Config) :
    (mkParser { schema := [], relations := relations, config := config }).column_map =
      config.custom_mappings.foldl (fun m ac => aset m (lowerS ac.1) [ac.2]) [] ∧
    (mkParser { schema := [], relations := relations, config := config }).table_columns =
      [] :=
  ⟨rfl, rfl⟩

/-! ## C3: the WHERE-clause condition split -/

/-- C3 counterexample: a comma nested inside parentheses is used as a split
point — `x=(1,2)` is torn into two fragments. -/
theorem c3_counterexample :
    splitConditions "x=(1,2)" = ["x=(1", "2)"] := by rfl

/-- No piece produced by the split scanner contains a comma (every comma in
the input is consumed as a separator, with no awareness of parentheses). -/
theorem reSplit_comma_free (word : List Char) (fuel : Nat) (l acc : List Char)
    (hacc : acc.all (fun c => c ≠ ',') = true) :
    (reSplitFuel word true fuel l acc).all
      (fun p => p.data.all (fun c => c ≠ ',')) = true := by
  induction fuel generalizing l acc with
  | zero =>
    match l with
    | [] =>
      simp only [reSplitFuel, List.all_cons, List.all_nil, Bool.and_true]
      simpa using hacc
    | c :: t =>
      simp only [reSplitFuel, List.all_cons, List.all_nil, Bool.and_true]
      simpa using hacc
  | succ fuel ihn =>
    match l with
    | [] =>
      simp only [reSplitFuel, List.all_cons, List.all_nil, Bool.and_true]
      simpa using hacc
    | c :: t =>
      rw [reSplitFuel]
      cases h : wordSepLen word (c :: t) with
      | some nn =>
        simp only [List.all_cons, Bool.and_eq_true]
        exact ⟨by simpa using hacc, ihn _ [] (by simp)⟩
      | none =>
        by_cases hc : c = ','
        · have hcond : ((true = true) ∧ c = ',') := ⟨rfl, hc⟩
          rw [if_pos (by simpa using hcond)]
          simp only [List.all_cons, Bool.and_eq_true]
          exact ⟨by simpa using hacc, ihn t [] (by simp)⟩
        · have hcond : ¬ ((true ∧ c = ',') : Prop) := by simp [hc]
          rw [if_neg (by simpa using hcond)]
          refine ihn t (c :: acc) ?_
          simp only [List.all_cons, Bool.and_eq_true]
          exact ⟨by simpa using hc, hacc⟩

/-- C3 (amended): the WHERE clause is split on every `\s+and\s+` separator
(case-insensitive) and on every comma, with no parenthesis awareness, so no
returned condition ever contains a comma. -/
theorem c3_theorem (s : String) :
    (splitConditions s).all (fun p => p.data.all (fun c => c ≠ ',')) = true :=
  reSplit_comma_free ("and".data) s.data.length s.data [] (by simp)

/-! ## Join-path search: invariants (C5, C8) -/

/-- Number of searchable tables not yet visited. -/
def unvisCount (env : Env) (visited : List String) : Nat :=
  ((allTablesD env).filter (fun t => ¬ visited.contains t)).length

/-- `chainCheck env cur p target`: `p` is a non-empty walk that starts from
`cur`, follows an existing `get_related_tables` edge at every hop, and ends
at `target`. -/
def chainCheck (env : Env) : String → JoinPath → String → Bool
  | _, [], _ => false
  | cur, (t, ji) :: rest, target =>
    match rest with
    | [] => decide (alookup (getRelatedTables env cur) t = some ji) && decide (t = target)
    | _ :: _ =>
      decide (alookup (getRelatedTables env cur) t = some ji) &&
        chainCheck env t rest target

/-- The invariant of one heap entry `(score, counter, table, path)` of the
best-first search. -/
def EInv (env : Env) (base target : String) (visited : List String) (e : HeapE) : Prop :=
  ((e.2.2.2 = [] ∧ e.2.2.1 = base) ∨ chainCheck env base e.2.2.2 e.2.2.1 = true) ∧
  (e.2.2.2.map Prod.fst).Nodup ∧
  (∀ x ∈ e.2.2.2.map Prod.fst, visited.contains x = true) ∧
  ((e.2.2.2.map Prod.fst).contains target = false) ∧
  ((e.2.2.2.map Prod.fst).contains base = false)

theorem heapPush_length (h : List HeapE) (e : HeapE) :
    (heapPush h e).length = h.length + 1 := by
  induction h with
  | nil => simp [heapPush]
  | cons x r ih =>
    by_cases hc : e.1 < x.1 ∨ (e.1 = x.1 ∧ e.2.1 < x.2.1)
    · simp [heapPush, hc]
    · simp [heapPush, hc, ih]

theorem heapPush_mem {h : List HeapE} {e x : HeapE} (hx : x ∈ heapPush h e) :
    x ∈ h ∨ x = e := by
  induction h with
  | nil => simpa [heapPush] using hx
  | cons y r ih =>
    by_cases hc : e.1 < y.1 ∨ (e.1 = y.1 ∧ e.2.1 < y.2.1)
    · simp only [heapPush, hc, if_true] at hx
      rcases List.mem_cons.mp hx with hx | hx
      · right; exact hx
      · left
        simpa using List.mem_cons.mp hx |>.elim (fun h => Or.inl h) (fun h => Or.inr h)
    · simp only [heapPush, hc, if_false] at hx
      rcases List.mem_cons.mp hx with hx | hx
      · left; exact hx ▸ List.mem_cons_self _ _
      · rcases ih hx with h' | h'
        · left; exact List.mem_cons_of_mem _ h'
        · right; exact h'

theorem chainCheck_single (env : Env) (cur a1 x : String) (a2 : JoinInfo) :
    chainCheck env cur [(a1, a2)] x =
      (decide (alookup (getRelatedTables env cur) a1 = some a2) && decide (a1 = x)) := rfl

theorem chainCheck_cons_ne (env : Env) (cur a1 x : String) (a2 : JoinInfo)
    (l : JoinPath) (hl : l ≠ []) :
    chainCheck env cur ((a1, a2) :: l) x =
      (decide (alookup (getRelatedTables env cur) a1 = some a2) &&
        chainCheck env a1 l x) := by
  match l with
  | [] => exact absurd rfl hl
  | c :: cs => rfl

theorem chainCheck_snoc (env : Env) :
    ∀ (p : JoinPath) (cur t x : String) (ji : JoinInfo),
    ((p = [] ∧ t = cur) ∨ chainCheck env cur p t = true) →
    alookup (getRelatedTables env t) x = some ji →
    chainCheck env cur (p ++ [(x, ji)]) x = true := by
  intro p
  induction p with
  | nil =>
    intro cur t x ji hch hlk
    rcases hch with ⟨_, ht⟩ | hch
    · subst ht
      rw [List.nil_append, chainCheck_single]
      simp [hlk]
    · simp [chainCheck] at hch
  | cons a rest ih =>
    intro cur t x ji hch hlk
    rcases hch with ⟨hne, _⟩ | hch
    · exact absurd hne (by simp)
    · rcases a with ⟨a1, a2⟩
      cases rest with
      | nil =>
        rw [chainCheck_single] at hch
        simp only [Bool.and_eq_true, decide_eq_true_eq] at hch
        rcases hch with ⟨hlk1, ht⟩
        subst ht
        rw [List.cons_append, List.nil_append,
          chainCheck_cons_ne env cur a1 x a2 [(x, ji)] (by simp)]
        simp only [Bool.and_eq_true, decide_eq_true_eq]
        refine ⟨hlk1, ?_⟩
        rw [chainCheck_single]
        simp [hlk]
      | cons r0 rr =>
        rw [chainCheck_cons_ne env cur a1 t a2 (r0 :: rr) (by simp)] at hch
        simp only [Bool.and_eq_true, decide_eq_true_eq] at hch
        rcases hch with ⟨hlk1, hrest⟩
        rw [List.cons_append,
          chainCheck_cons_ne env cur a1 x a2 ((r0 :: rr) ++ [(x, ji)]) (by simp)]
        simp only [Bool.and_eq_true, decide_eq_true_eq]
        exact ⟨hlk1, ih a1 t x ji (Or.inr hrest) hlk⟩

/-- Generic fold invariant: a property of bindings preserved by every step. -/
theorem fold_pairs {β γ : Type} (P : (String × β) → Prop)
    (f : List (String × β) → γ → List (String × β)) :
    ∀ (xs : List γ) (init : List (String × β)),
    (∀ m x, x ∈ xs → (∀ p ∈ m, P p) → ∀ p ∈ f m x, P p) →
    (∀ p ∈ init, P p) → ∀ p ∈ xs.foldl f init, P p := by
  intro xs
  induction xs with
  | nil => intro init _ hinit; simpa using hinit
  | cons x rest ih =>
    intro init hf hinit
    simp only [List.foldl_cons]
    refine ih (f init x) (fun m y hy => hf m y (List.mem_cons_of_mem _ hy)) ?_
    exact hf init x (List.mem_cons_self _ _) hinit

/-- Generic fold invariant: key-list `Nodup` preserved by every step. -/
theorem fold_keys_nodup {β γ : Type}
    (f : List (String × β) → γ → List (String × β))
    (hf : ∀ m x, (m.map Prod.fst).Nodup → ((f m x).map Prod.fst).Nodup) :
    ∀ (xs : List γ) (init : List (String × β)),
    (init.map Prod.fst).Nodup → ((xs.foldl f init).map Prod.fst).Nodup := by
  intro xs
  induction xs with
  | nil => intro init h; simpa using h
  | cons x rest ih =>
    intro init h
    simp only [List.foldl_cons]
    exact ih (f init x) (hf init x h)

theorem aset_keys_nodup {β : Type} {m : List (String × β)} (k : String) (v : β)
    (h : (m.map Prod.fst).Nodup) : ((aset m k v).map Prod.fst).Nodup := by
  induction m with
  | nil => simp [aset]
  | cons p t ih =>
    by_cases hk : p.1 = k
    · subst hk
      simpa [aset] using h
    · rw [List.map_cons, List.nodup_cons] at h
      have ht := ih h.2
      have hmem : p.1 ∉ ((aset t k v).map Prod.fst) := by
        rcases aset_keys t k v with he | he
        · rw [he]; exact h.1
        · rw [he]
          simp only [List.mem_append, List.mem_singleton]
          rintro (hmem | hmem)
          · exact h.1 hmem
          · exact hk hmem
      simp only [aset, hk, if_false, List.map_cons, List.nodup_cons]
      exact ⟨hmem, ht⟩

theorem allTablesD_nodup (env : Env) : (allTablesD env).Nodup := List.nodup_dedup _

theorem unvis_le (env : Env) (v : List String) :
    unvisCount env v ≤ (allTablesD env).length :=
  List.length_filter_le _ _

theorem filter_notin_cons_mem {v : List String} {x : String} :
    ∀ (l : List String), l.Nodup → x ∈ l → x ∉ v →
    (l.filter (fun t => decide (¬ (t = x ∨ t ∈ v)))).length + 1 =
      (l.filter (fun t => decide (¬ t ∈ v))).length := by
  intro l
  induction l with
  | nil => intro _ hx _; simp at hx
  | cons a rest ih =>
    intro hnd hx hnv
    rw [List.nodup_cons] at hnd
    by_cases hax : a = x
    · subst hax
      have hrest : rest.filter (fun t => decide (¬ (t = a ∨ t ∈ v))) =
          rest.filter (fun t => decide (¬ t ∈ v)) := by
        apply List.filter_congr
        intro t ht
        have htx : ¬ t = a := fun he => hnd.1 (he ▸ ht)
        simp [htx]
      simp only [List.filter_cons]
      simp only [eq_self_iff_true, true_or, not_true_eq_false, decide_False]
      have hrest' := hrest
      simp only [decide_not] at hrest'
      simp [hnv]
      have e : rest.filter (fun t => !decide (t = a) && !decide (t ∈ v)) =
          rest.filter (fun t => !decide (t = a ∨ t ∈ v)) := by
        apply List.filter_congr
        intro t _
        by_cases h1 : t = a <;> by_cases h2 : t ∈ v <;> simp [h1, h2]
      rw [e, hrest']
    · simp only [List.filter_cons]
      have hx' : x ∈ rest := by
        rcases List.mem_cons.mp hx with h | h
        · exact absurd h.symm hax
        · exact h
      have hrec := ih hnd.2 hx' hnv
      by_cases hav : a ∈ v
      · have h1 : (decide (¬ (a = x ∨ a ∈ v))) = false := by simp [hav]
        have h2 : (decide (¬ a ∈ v)) = false := by simp [hav]
        simp only [h1, h2, Bool.false_eq_true, if_false]
        exact hrec
      · have h1 : (decide (¬ (a = x ∨ a ∈ v))) = true := by simp [hax, hav]
        have h2 : (decide (¬ a ∈ v)) = true := by simp [hav]
        simp only [h1, h2, if_true, List.length_cons]
        omega

theorem filter_notin_cons {v : List String} {x : String}
    (l : List String) (hnd : l.Nodup) (hx : x ∈ l) (hnv : v.contains x = false) :
    (l.filter (fun t => ¬ (x :: v).contains t)).length + 1 =
      (l.filter (fun t => ¬ v.contains t)).length := by
  have hnv' : x ∉ v := by simpa using hnv
  have e1 : l.filter (fun t => ¬ (x :: v).contains t) =
      l.filter (fun t => decide (¬ (t = x ∨ t ∈ v))) := by
    apply List.filter_congr
    intro t _
    simp [List.contains_cons]
  have e2 : l.filter (fun t => ¬ v.contains t) =
      l.filter (fun t => decide (¬ t ∈ v)) := by
    apply List.filter_congr
    intro t _
    simp
  rw [e1, e2]
  exact filter_notin_cons_mem l hnd hx hnv'

theorem unvis_cons (env : Env) (v : List String) (x : String)
    (hx : x ∈ allTablesD env) (hnv : v.contains x = false) :
    unvisCount env (x :: v) + 1 = unvisCount env v :=
  filter_notin_cons (allTablesD env) (allTablesD_nodup env) hx hnv

/-- Every incoming edge recorded by `_build_reverse_relations` originates at
a table that appears as a key of the relations snapshot. -/
theorem revRel_from_mem (env : Env) :
    ∀ p ∈ reverseRelations env, ∀ e ∈ p.2, e.from_table ∈ env.relations.map Prod.fst := by
  unfold reverseRelations
  refine fold_pairs
    (fun (p : String × List RevRel) =>
      ∀ e ∈ p.2, e.from_table ∈ env.relations.map Prod.fst)
    _ env.relations [] ?_ (by simp)
  intro m ft hft hm
  refine fold_pairs
    (fun (p : String × List RevRel) =>
      ∀ e ∈ p.2, e.from_table ∈ env.relations.map Prod.fst)
    _ ft.2 m ?_ hm
  intro m' rel _ hm' q hq
  rcases mem_aset hq with h | h
  · exact hm' q h
  · subst h
    intro e he
    rcases List.mem_append.mp he with he | he
    · match halk : alookup m' rel.to_table with
      | some l =>
        have hl := hm' (rel.to_table, l) (alookup_mem halk) e
        rw [halk] at he
        exact hl he
      | none =>
        rw [halk] at he
        simp at he
    · rw [List.mem_singleton] at he
      subst he
      exact List.mem_map_of_mem Prod.fst hft

/-- Every table adjacent per `get_related_tables` is a searchable table. -/
theorem getRelated_key_mem (env : Env) (t : String) :
    ∀ kj ∈ getRelatedTables env t, kj.1 ∈ allTablesD env := by
  intro kj hkj
  simp only [getRelatedTables] at hkj
  have houts : ∀ kj ∈ (((alookup env.relations t).getD []).foldl
      (fun m rel => aset m rel.to_table
        ({ join_type := "outgoing", base_column := rel.from_column,
           target_column := rel.to_column } : JoinInfo)) []),
      kj.1 ∈ allTablesD env := by
    refine fold_pairs (fun p => p.1 ∈ allTablesD env) _ _ [] ?_ (by simp)
    intro m rel hrel hmP p hp
    rcases mem_aset hp with h | h
    · exact hmP p h
    · subst h
      unfold allTablesD
      rw [List.mem_dedup]
      refine List.mem_append.mpr (Or.inr ?_)
      rw [List.mem_flatMap]
      match halk : alookup env.relations t with
      | some rs =>
        refine ⟨(t, rs), alookup_mem halk, ?_⟩
        rw [halk] at hrel
        exact List.mem_map_of_mem FKRel.to_table hrel
      | none =>
        rw [halk] at hrel
        simp at hrel
  refine (fold_pairs (fun p => p.1 ∈ allTablesD env) _ _ _ ?_ houts) kj hkj
  intro m rel hrel hm p hp
  by_cases hmem : amem m rel.from_table
  · simp only [hmem, if_true] at hp
    exact hm p hp
  · simp only [hmem, if_false] at hp
    rcases mem_aset hp with h | h
    · exact hm p h
    · subst h
      unfold allTablesD
      rw [List.mem_dedup]
      refine List.mem_append.mpr (Or.inl ?_)
      match halk : alookup (reverseRelations env) t with
      | some rl =>
        have := revRel_from_mem env (t, rl) (alookup_mem halk) rel
        rw [halk] at hrel
        exact this hrel
      | none =>
        rw [halk] at hrel
        simp at hrel

/-- The adjacency list of `get_related_tables` has pairwise-distinct keys. -/
theorem getRelated_keys_nodup (env : Env) (t : String) :
    ((getRelatedTables env t).map Prod.fst).Nodup := by
  unfold getRelatedTables
  refine fold_keys_nodup _ ?_ _ _ ?_
  · intro m rel h
    by_cases hmem : amem m rel.from_table
    · simpa [hmem] using h
    · simp only [hmem, if_false]
      exact aset_keys_nodup _ _ h
  · refine fold_keys_nodup _ ?_ _ _ (by simp)
    intro m rel h
    exact aset_keys_nodup _ _ h

theorem contains_cons_of {v : List String} {x : String} (y : String)
    (h : v.contains x = true) : ((y :: v).contains x) = true := by
  rcases List.contains_iff_exists_mem_beq.mp h with ⟨a, ha, hb⟩
  exact List.contains_iff_exists_mem_beq.mpr ⟨a, List.mem_cons_of_mem _ ha, hb⟩

theorem contains_false_iff {v : List String} {x : String} :
    v.contains x = false ↔ x ∉ v := by
  constructor
  · intro h hmem
    have : v.contains x = true := by
      exact List.contains_iff_exists_mem_beq.mpr ⟨x, hmem, by simp⟩
    rw [h] at this
    exact Bool.false_ne_true this
  · intro h
    cases hc : v.contains x
    · rfl
    · rcases List.contains_iff_exists_mem_beq.mp hc with ⟨a, ha, hb⟩
      have : x = a := by simpa using hb
      exact absurd (this ▸ ha) h

theorem contains_true_iff {v : List String} {x : String} :
    v.contains x = true ↔ x ∈ v := by
  constructor
  · intro h
    rcases List.contains_iff_exists_mem_beq.mp h with ⟨a, ha, hb⟩
    have : x = a := by simpa using hb
    exact this ▸ ha
  · intro h
    exact List.contains_iff_exists_mem_beq.mpr ⟨x, h, by simp⟩

/-- The invariant of a freshly pushed heap entry. -/
theorem EInv_new (env : Env) (base target tbl : String) (v0 : List String)
    (path : JoinPath) (nt : String × JoinInfo)
    (hbase : v0.contains base = true)
    (hchain : (path = [] ∧ tbl = base) ∨ chainCheck env base path tbl = true)
    (hptbl : ∀ x ∈ path.map Prod.fst, v0.contains x = true)
    (hpnd : (path.map Prod.fst).Nodup)
    (hptgt : ((path.map Prod.fst).contains target) = false)
    (hpbase : ((path.map Prod.fst).contains base) = false)
    (hlk : alookup (getRelatedTables env tbl) nt.1 = some nt.2)
    (hnttgt : nt.1 ≠ target)
    (hv : v0.contains nt.1 = false) (s c : Nat) :
    EInv env base target (nt.1 :: v0) (s, c, nt.1, path ++ [nt]) := by
  have hntpath : nt.1 ∉ path.map Prod.fst := by
    intro hmem
    rw [hptbl nt.1 hmem] at hv
    exact absurd hv (by simp)
  have hntbase : nt.1 ≠ base := by
    intro he
    rw [he, hbase] at hv
    exact absurd hv (by simp)
  refine ⟨?_, ?_, ?_, ?_, ?_⟩
  · right
    exact chainCheck_snoc env path base tbl nt.1 nt.2 hchain hlk
  · simp only [List.map_append, List.map_cons, List.map_nil]
    rw [List.nodup_append]
    exact ⟨hpnd, List.nodup_singleton _, by
      intro a ha hb
      rw [List.mem_singleton] at hb
      exact hntpath (hb ▸ ha)⟩
  · intro x hx
    simp only [List.map_append, List.map_cons, List.map_nil] at hx
    rcases List.mem_append.mp hx with hx | hx
    · exact contains_cons_of _ (hptbl x hx)
    · rw [List.mem_singleton] at hx
      subst hx
      exact contains_true_iff.mpr (List.mem_cons_self _ _)
  · rw [contains_false_iff]
    intro hmem
    simp only [List.map_append, List.map_cons, List.map_nil] at hmem
    rcases List.mem_append.mp hmem with hmem | hmem
    · exact absurd hmem (contains_false_iff.mp hptgt)
    · rw [List.mem_singleton] at hmem
      exact hnttgt hmem.symm
  · rw [contains_false_iff]
    intro hmem
    simp only [List.map_append, List.map_cons, List.map_nil] at hmem
    rcases List.mem_append.mp hmem with hmem | hmem
    · exact absurd hmem (contains_false_iff.mp hpbase)
    · rw [List.mem_singleton] at hmem
      exact hntbase hmem.symm

/-- A heap-entry invariant survives growth of the visited set. -/
theorem EInv_mono (env : Env) (base target : String) {v : List String} (y : String)
    {e : HeapE} (h : EInv env base target v e) : EInv env base target (y :: v) e := by
  rcases h with ⟨h1, h2, h3, h4, h5⟩
  exact ⟨h1, h2, fun x hx => contains_cons_of _ (h3 x hx), h4, h5⟩

/-- Expanding one node preserves the heap invariants, keeps the base
visited, only grows the visited set, and leaves `heap length + unvisited
count` unchanged. -/
theorem expandNode_ok (env : Env) (base target tbl : String) (score : Nat)
    (path : JoinPath) :
    ∀ (related : List (String × JoinInfo)) (h0 : List HeapE) (v0 : List String) (c0 : Nat),
    (∀ kj ∈ related, kj.1 ∈ allTablesD env) →
    (∀ kj ∈ related, kj.1 ≠ target) →
    (∀ kj ∈ related, alookup (getRelatedTables env tbl) kj.1 = some kj.2) →
    (∀ e ∈ h0, EInv env base target v0 e) →
    v0.contains base = true →
    ((path = [] ∧ tbl = base) ∨ chainCheck env base path tbl = true) →
    (∀ x ∈ path.map Prod.fst, v0.contains x = true) →
    (path.map Prod.fst).Nodup →
    ((path.map Prod.fst).contains target) = false →
    ((path.map Prod.fst).contains base) = false →
    (∀ e ∈ (expandNode env tbl score path related h0 v0 c0).1,
        EInv env base target (expandNode env tbl score path related h0 v0 c0).2.1 e) ∧
    (expandNode env tbl score path related h0 v0 c0).2.1.contains base = true ∧
    (∀ x, v0.contains x = true →
        (expandNode env tbl score path related h0 v0 c0).2.1.contains x = true) ∧
    (expandNode env tbl score path related h0 v0 c0).1.length +
        unvisCount env (expandNode env tbl score path related h0 v0 c0).2.1 =
      h0.length + unvisCount env v0 := by
  intro related
  induction related with
  | nil =>
    intro h0 v0 c0 _ _ _ hh0 hbase _ _ _ _ _
    exact ⟨hh0, hbase, fun x hx => hx, rfl⟩
  | cons nt rest ih =>
    intro h0 v0 c0 hk ht hlk hh0 hbase hchain hptbl hpnd hptgt hpbase
    have hk' := fun kj hkj => hk kj (List.mem_cons_of_mem _ hkj)
    have ht' := fun kj hkj => ht kj (List.mem_cons_of_mem _ hkj)
    have hlk' := fun kj hkj => hlk kj (List.mem_cons_of_mem _ hkj)
    by_cases hv : v0.contains nt.1 = true
    · have he : expandNode env tbl score path (nt :: rest) h0 v0 c0 =
          expandNode env tbl score path rest h0 v0 c0 := by
        rw [expandNode.eq_2, if_pos hv]
      rw [he]
      exact ih h0 v0 c0 hk' ht' hlk' hh0 hbase hchain hptbl hpnd hptgt hpbase
    · have hvf : v0.contains nt.1 = false := by
        cases hvv : v0.contains nt.1
        · rfl
        · exact absurd hvv hv
      have he : expandNode env tbl score path (nt :: rest) h0 v0 c0 =
          expandNode env tbl score path rest
            (heapPush h0 (score + scoreRelation env tbl nt.1 nt.2, c0, nt.1, path ++ [nt]))
            (nt.1 :: v0) (c0 + 1) := by
        rw [expandNode.eq_2, if_neg hv]
      rw [he]
      have hnew : EInv env base target (nt.1 :: v0)
          (score + scoreRelation env tbl nt.1 nt.2, c0, nt.1, path ++ [nt]) :=
        EInv_new env base target tbl v0 path nt hbase hchain hptbl hpnd hptgt hpbase
          (hlk nt (List.mem_cons_self _ _)) (ht nt (List.mem_cons_self _ _)) hvf _ _
      have hheap : ∀ e ∈ heapPush h0
          (score + scoreRelation env tbl nt.1 nt.2, c0, nt.1, path ++ [nt]),
          EInv env base target (nt.1 :: v0) e := by
        intro e hee
        rcases heapPush_mem hee with hee | hee
        · exact EInv_mono env base target nt.1 (hh0 e hee)
        · subst hee
          exact hnew
      have hbase' : ((nt.1 :: v0).contains base) = true := contains_cons_of _ hbase
      have hptbl' : ∀ x ∈ path.map Prod.fst, ((nt.1 :: v0).contains x) = true :=
        fun x hx => contains_cons_of _ (hptbl x hx)
      have hres := ih
        (heapPush h0 (score + scoreRelation env tbl nt.1 nt.2, c0, nt.1, path ++ [nt]))
        (nt.1 :: v0) (c0 + 1) hk' ht' hlk' hheap hbase' hchain hptbl' hpnd hptgt hpbase
      refine ⟨hres.1, hres.2.1, ?_, ?_⟩
      · intro x hx
        exact hres.2.2.1 x (contains_cons_of _ hx)
      · rw [hres.2.2.2, heapPush_length]
        have hu := unvis_cons env v0 nt.1 (hk nt (List.mem_cons_self _ _)) hvf
        omega

/-- The best-first loop never exhausts fuel above the measure, and any path
it returns is a valid simple chain from the base to the target. -/
theorem joinLoop_ok (env : Env) (base target : String) :
    ∀ (fuel : Nat) (heap : List HeapE) (visited : List String) (counter : Nat),
    heap.length + unvisCount env visited < fuel →
    (∀ e ∈ heap, EInv env base target visited e) →
    visited.contains base = true →
    (joinLoop env target fuel heap visited counter).isSome = true ∧
    (∀ p, joinLoop env target fuel heap visited counter = some (some p) →
      chainCheck env base p target = true ∧ (p.map Prod.fst).Nodup ∧
      (target ≠ base → ((p.map Prod.fst).contains base) = false)) := by
  intro fuel
  induction fuel with
  | zero =>
    intro heap visited counter hm
    omega
  | succ fuel ih =>
    intro heap visited counter hm hh hbase
    match heap with
    | [] =>
      refine ⟨by simp [joinLoop], ?_⟩
      intro p hp
      simp [joinLoop] at hp
    | (score, cnt, tbl, path) :: rest =>
      rcases hh _ (List.mem_cons_self _ _) with ⟨hchain, hpnd, hptbl, hptgt, hpbase⟩
      match hlt : alookup (getRelatedTables env tbl) target with
      | some ji =>
        have heq : joinLoop env target (fuel + 1) ((score, cnt, tbl, path) :: rest)
            visited counter = some (some (path ++ [(target, ji)])) := by
          rw [joinLoop.eq_3, hlt]
        rw [heq]
        refine ⟨rfl, ?_⟩
        intro p hp
        injection hp with hp
        injection hp with hp
        subst hp
        have hch : chainCheck env base (path ++ [(target, ji)]) target = true :=
          chainCheck_snoc env path base tbl target ji hchain hlt
        have htnp : target ∉ path.map Prod.fst := contains_false_iff.mp hptgt
        refine ⟨hch, ?_, ?_⟩
        · simp only [List.map_append, List.map_cons, List.map_nil]
          rw [List.nodup_append]
          exact ⟨hpnd, List.nodup_singleton _, by
            intro a ha hb
            rw [List.mem_singleton] at hb
            exact htnp (hb ▸ ha)⟩
        · intro htb
          rw [contains_false_iff]
          intro hmem
          simp only [List.map_append, List.map_cons, List.map_nil] at hmem
          rcases List.mem_append.mp hmem with hmem | hmem
          · exact absurd hmem (contains_false_iff.mp hpbase)
          · rw [List.mem_singleton] at hmem
            exact htb hmem.symm
      | none =>
        have hkeys := getRelated_key_mem env tbl
        have hnodup := getRelated_keys_nodup env tbl
        have hnotgt := alookup_none_not_mem hlt
        have hex := expandNode_ok env base target tbl score path
          (getRelatedTables env tbl) rest visited counter
          hkeys hnotgt
          (fun kj hkj => alookup_of_mem_nodup hnodup (by
            rcases kj with ⟨k1, k2⟩
            exact hkj))
          (fun e he => hh e (List.mem_cons_of_mem _ he)) hbase hchain hptbl hpnd
          hptgt hpbase
        have heq : joinLoop env target (fuel + 1) ((score, cnt, tbl, path) :: rest)
            visited counter =
            joinLoop env target fuel
              (expandNode env tbl score path (getRelatedTables env tbl)
                rest visited counter).1
              (expandNode env tbl score path (getRelatedTables env tbl)
                rest visited counter).2.1
              (expandNode env tbl score path (getRelatedTables env tbl)
                rest visited counter).2.2 := by
          rw [joinLoop.eq_3, hlt]
        rw [heq]
        refine ih _ _ _ ?_ hex.1 hex.2.1
        have := hex.2.2.2
        simp only [List.length_cons] at hm
        omega

/-- The automatic search never exhausts its fuel and only returns valid
simple chains from base to target. -/
theorem findJoinPathAuto_ok (env : Env) (base target : String) :
    (findJoinPathAuto env base target).isSome = true ∧
    (∀ p, findJoinPathAuto env base target = some (some p) →
      chainCheck env base p target = true ∧ (p.map Prod.fst).Nodup ∧
      (target ≠ base → ((p.map Prod.fst).contains base) = false)) := by
  match hlt : alookup (getRelatedTables env base) target with
  | some ji =>
    have heq : findJoinPathAuto env base target = some (some [(target, ji)]) := by
      simp only [findJoinPathAuto, hlt]
    rw [heq]
    refine ⟨rfl, ?_⟩
    intro p hp
    injection hp with hp
    injection hp with hp
    subst hp
    refine ⟨?_, by simp, ?_⟩
    · rw [chainCheck_single]
      simp [hlt]
    · intro htb
      simp only [List.map_cons, List.map_nil]
      rw [contains_false_iff]
      intro hmem
      rw [List.mem_singleton] at hmem
      exact htb hmem.symm
  | none =>
    have hkeys := getRelated_key_mem env base
    have hnodup := getRelated_keys_nodup env base
    have hnotgt := alookup_none_not_mem hlt
    have hex := expandNode_ok env base target base 0 []
      (getRelatedTables env base) [] [base] 0
      hkeys hnotgt
      (fun kj hkj => alookup_of_mem_nodup hnodup (by
        rcases kj with ⟨k1, k2⟩
        exact hkj))
      (by simp) (by simp) (Or.inl ⟨rfl, rfl⟩) (by simp) (by simp) rfl rfl
    have heq : findJoinPathAuto env base target =
        joinLoop env target
          (joinFuel env (expandNode env base 0 []
            (getRelatedTables env base) [] [base] 0).1)
          (expandNode env base 0 [] (getRelatedTables env base) [] [base] 0).1
          (expandNode env base 0 [] (getRelatedTables env base) [] [base] 0).2.1
          (expandNode env base 0 [] (getRelatedTables env base) [] [base] 0).2.2 := by
      simp only [findJoinPathAuto, hlt]
    rw [heq]
    refine joinLoop_ok env base target _ _ _ _ ?_ hex.1 hex.2.1
    have hun := unvis_le env
      (expandNode env base 0 [] (getRelatedTables env base) [] [base] 0).2.1
    simp only [joinFuel]
    omega

/-- The path returned by the automatic search, checked to be a valid chain
from base to target (`true` for the no-path and fuel-sentinel outcomes). -/
def autoResultValid (env : Env) (base target : String) : Bool :=
  match findJoinPathAuto env base target with
  | some (some p) => chainCheck env base p target
  | _ => true

/-- C5 (amended): the automatic search is a scored best-first search that
marks tables visited on enqueue and returns as soon as it reaches the
target (including via a direct edge from the base); every path it returns
is a valid simple chain from the base to the target, but it need not have
minimal accumulated cost. -/
theorem c5_theorem (env : Env) (base target : String) :
    autoResultValid env base target = true := by
  unfold autoResultValid
  match h : findJoinPathAuto env base target with
  | some (some p) => exact ((findJoinPathAuto_ok env base target).2 p h).1
  | some none => rfl
  | none => rfl

/-- Accumulated edge cost of a path, per `_score_relation`. -/
def pathCost (env : Env) : String → JoinPath → Nat
  | _, [] => 0
  | cur, (t, ji) :: rest => scoreRelation env cur t ji + pathCost env t rest

/-- Foreign-key graph on which the greedy early return is suboptimal:
`b.x_ref → t.id` (cost 2) next to `b.m_id → m.id → (m.t_id → t.id)`
(cost 0 + 0). -/
def envGreedy : Env :=
  { schema := [],
    relations :=
      [("b", [{ from_column := "x_ref", to_table := "t", to_column := "id" },
              { from_column := "m_id", to_table := "m", to_column := "id" }]),
       ("m", [{ from_column := "t_id", to_table := "t", to_column := "id" }])],
    config := emptyConfig }

/-- The cheaper two-hop alternative the search never considers. -/
def altPathGreedy : JoinPath :=
  [("m", { join_type := "outgoing", base_column := "m_id", target_column := "id" }),
   ("t", { join_type := "outgoing", base_column := "t_id", target_column := "id" })]

/-- C5 counterexample: the search returns the direct edge of accumulated
cost 2 although a valid simple path of accumulated cost 0 exists, so the
returned path does not minimize accumulated edge cost. -/
theorem c5_counterexample :
    findJoinPath envGreedy "b" "t" =
      some [("t", { join_type := "outgoing", base_column := "x_ref",
                    target_column := "id" })] ∧
    pathCost envGreedy "b"
      [("t", { join_type := "outgoing", base_column := "x_ref",
               target_column := "id" })] = 2 ∧
    chainCheck envGreedy "b" altPathGreedy "t" = true ∧
    (altPathGreedy.map Prod.fst).Nodup ∧
    pathCost envGreedy "b" altPathGreedy = 0 := by
  refine ⟨by rfl, by rfl, by rfl, by decide, by rfl⟩

/-- C8: when no preferred path is configured for `(base, target)`, the
automatic search terminates (its fuel provably never runs out even on
cyclic graphs) and any returned join path never revisits a table: its
tables are pairwise distinct and the base table never reappears. -/
theorem c8_theorem (env : Env) (base target : String)
    (hpref : alookupP env.config.preferred_paths (base, target) = none) :
    (findJoinPathAuto env base target).isSome = true ∧
    (match findJoinPath env base target with
     | some p => (p.map Prod.fst).Nodup ∧ ((p.map Prod.fst).contains base) = false
     | none => True) := by
  refine ⟨(findJoinPathAuto_ok env base target).1, ?_⟩
  by_cases hbt : base = target
  · subst hbt
    simp [findJoinPath]
  · have hne : ¬ (base = target) := hbt
    match h : findJoinPathAuto env base target with
    | none =>
      have := (findJoinPathAuto_ok env base target).1
      rw [h] at this
      simp at this
    | some none =>
      have heq : findJoinPath env base target = none := by
        simp only [findJoinPath, hne, if_false, hpref, h]
      rw [heq]
      trivial
    | some (some p) =>
      have heq : findJoinPath env base target = some p := by
        simp only [findJoinPath, hne, if_false, hpref, h]
      rw [heq]
      have hok := (findJoinPathAuto_ok env base target).2 p h
      exact ⟨hok.2.1, hok.2.2 (fun he => hbt he.symm)⟩

/-- C8 witness: the theorem at a concrete graph with no preferred paths. -/
theorem c8_witness :
    (findJoinPathAuto envGreedy "b" "t").isSome = true ∧
    (match findJoinPath envGreedy "b" "t" with
     | some p => (p.map Prod.fst).Nodup ∧ ((p.map Prod.fst).contains "b") = false
     | none => True) :=
  c8_theorem envGreedy "b" "t" rfl

/-! ## C2: identifier validation coverage of `build_sql` -/

/-- Environment whose configured default filter names a column that violates
the identifier pattern. -/
def envBadFilter : Env :=
  { schema := [("job", [{ name := "jnum", typ := "text" }])],
    relations := [],
    config := { emptyConfig with default_filters :=
      [("job", [{ column := "bad name", opt_op := none, value := .b false }])] } }

set_option maxRecDepth 8000

/-- C2: `build_sql` validates only the base table and the select-list
identifiers; a default-filter column that fails the identifier pattern is
interpolated into the emitted SQL without any `InvalidIdentifierError` —
contradicting the source's own "Sanitize all identifiers untuk prevent SQL
injection" comment and the spec's config-injection guard. -/
theorem c2_bug_exhibit :
    validIdent "bad name" = false ∧
    (translateQ envBadFilter emptyCache "show jnum" 1000).1 =
      .ok ("SELECT \"job\".\"jnum\" AS \"jnum\"\nFROM \"job\"\nWHERE \"job\".\"bad name\" = %s\nLIMIT 1000",
        [Param.b false], ["job.bad name=False"]) ∧
    isSubstrS "\"job\".\"bad name\"" (match (translateQ envBadFilter emptyCache "show jnum" 1000).1 with
      | .ok out => out.1
      | .error e => e) = true := by
  refine And.intro rfl (And.intro ?_ ?_)
  · rfl
  · rfl

/-! ## C10: text columns, explicit operators and the intercepting branches -/

/-- Schema with a text `status` column and a boolean `is_active` column. -/
def envStatusText : Env :=
  { schema := [("job", [{ name := "status", typ := "text" },
                        { name := "is_active", typ := "boolean" }])],
    relations := [], config := emptyConfig }

/-- C10 counterexample: `status>active` targets the text column `status`
with the explicit operator `>`, yet the status-shortcut branch intercepts
it and emits a boolean equality on `is_active` — not an ILIKE predicate. -/
theorem c10_counterexample :
    getColumnType envStatusText "job" "status" = "text" ∧
    (processCondition envStatusText emptyCache "status>active" (some "job")).1 =
      .ok (["\"job\".\"is_active\" = %s"], [Param.b true], ["job"]) ∧
    isSubstrS "ILIKE" "\"job\".\"is_active\" = %s" = false := by
  refine ⟨rfl, rfl, rfl⟩

theorem txFamily_not_tsFamily {s : String} (h : txFamily.contains s = true) :
    tsFamily.contains s = false := by
  have hmem : s ∈ txFamily := contains_true_iff.mp h
  simp only [txFamily, List.mem_cons, List.mem_singleton, List.not_mem_nil,
    or_false] at hmem
  rcases hmem with h | h | h | h | h | h <;> subst h <;> rfl

/-- C10 (amended): a WHERE condition that reaches the regular column handler
(not intercepted by the date-range branch of `_process_condition` nor by the
status-shortcut branch) on a text-family column with a single (non-list)
value always emits a case-insensitive partial match `ILIKE %value%` with the
value bound as a parameter; any explicit comparison operator is discarded. -/
theorem c10_theorem (env : Env) (cache : Cache) (colPart valPart op : String)
    (base : Option String) (ci : ColInfo) (cache' : Cache)
    (hval1 : hasChar valPart '/' = false) (hval2 : hasChar valPart '|' = false)
    (hstatus : ((statusKeywords env).any
      (fun kw => isSubstrS kw (lowerS colPart)) && pyTruthy base) = false)
    (hfind : findColumn env cache colPart base = (some ci, cache'))
    (htype : txFamily.contains (getColumnType env ci.table ci.column) = true) :
    addCondition env cache colPart valPart op base =
      (.ok ([qref ci.table ci.column ++ " ILIKE %s"],
        [Param.s ("%" ++ lowerS valPart ++ "%")], [ci.table]), cache') := by
  unfold addCondition
  have hvals : condValues valPart = [lowerS valPart] := by
    unfold condValues
    rw [if_neg]
    intro hc
    rcases hc with hc | hc
    · rw [hval1] at hc; exact absurd hc (by simp)
    · rw [hval2] at hc; exact absurd hc (by simp)
  rw [if_neg (by rw [hstatus]; exact fun hc => absurd hc (by simp))]
  rw [hfind, hvals]
  dsimp only
  rw [if_neg (by rw [txFamily_not_tsFamily htype]; exact fun hc => absurd hc (by simp))]
  unfold regularTail
  rw [if_pos htype]

/-- Schema with a single plain text column, for the C10 witness. -/
def envTextCol : Env :=
  { schema := [("job", [{ name := "jname", typ := "text" }])],
    relations := [], config := emptyConfig }

/-- C10 witness: the amended theorem at a concrete text column, with an
explicit `>` operator that the emitted fragment discards. -/
theorem c10_witness :
    addCondition envTextCol emptyCache "jname" "Bob" ">" none =
      (.ok (["\"job\".\"jname\" ILIKE %s"], [Param.s "%bob%"], ["job"]),
        emptyCache) := by
  exact c10_theorem envTextCol emptyCache "jname" "Bob" ">" none
    { table := "job", column := "jname" } emptyCache
    rfl rfl rfl rfl rfl

/-! ## C4: legacy `show` queries and `_detect_optimal_base_table` -/

/-- Schema whose first `show` column lives outside the job tables. -/
def envShowBase : Env :=
  { schema := [("company", [{ name := "cname", typ := "text" }]),
               ("job", [{ name := "jnum", typ := "text" }])],
    relations := [], config := emptyConfig }

/-- C4 counterexample: in the legacy `show` form the first listed column
`cname` resolves to `company`, yet `_detect_optimal_base_table` overrides the
base table to `job` because a job column appears later in the select list —
the first column's table is not the base_table. -/
theorem c4_counterexample :
    (parseQ envShowBase emptyCache "show cname, jnum").1 =
      .ok { select_columns := [{ table := "company", column := "cname", aggregate := none },
                               { table := "job", column := "jnum", aggregate := none }],
            base_table := some "job", where_parts := [], params := [],
            where_tables := [], order_by := none, order_dir := "ASC" } ∧
    ("company" : String) ≠ "job" := by
  exact ⟨by rfl, by decide⟩

/-- The third branch of the `parse` format dispatch: a query in the legacy
`show` form always parses with no primary column. -/
theorem parseFormat_show (qt ql : String) (h1 : beginsWith ql "primary " = false)
    (h2 : beginsWith ql "show " = true) :
    ∃ cp cd ob od, parseFormat qt ql = .ok (none, cp, cd, ob, od) := by
  unfold parseFormat
  rw [if_neg (by rw [h1]; exact fun hc => absurd hc (by simp))]
  rw [if_neg (fun hc => hc.2 h2)]
  rw [if_pos h2]
  exact ⟨_, _, _, _, rfl⟩

/-- The select-column loop keeps the invariant that the base table, when no
primary column fixed it beforehand, is the table of the first resolved
select column. -/
theorem resolveSelCols_base (env : Env) :
    ∀ (cols : List String) (cache : Cache) (sel : List SelCol) (base : Option String)
      (out : List SelCol × Option String) (cacheF : Cache),
      (sel = [] → base = none) →
      (∀ s0 r, sel = s0 :: r → base = some s0.table) →
      resolveSelCols env cache cols sel base = (.ok out, cacheF) →
      (out.1 = [] → out.2 = none) ∧
        ∀ s0 r, out.1 = s0 :: r → out.2 = some s0.table := by
  intro cols
  induction cols with
  | nil =>
    intro cache sel base out cacheF h1 h2 hres
    unfold resolveSelCols at hres
    have h3 : (Except.ok (sel, base) : Except String (List SelCol × Option String)) = .ok out :=
      congrArg Prod.fst hres
    have h4 : (sel, base) = out := by injection h3
    rw [← h4]
    exact ⟨h1, h2⟩
  | cons c rest ih =>
    intro cache sel base out cacheF h1 h2 hres
    unfold resolveSelCols at hres
    by_cases hc : stripS c = ""
    · rw [if_pos hc] at hres
      exact ih cache sel base out cacheF h1 h2 hres
    · rw [if_neg hc] at hres
      split at hres
      split at hres
      · split at hres
        · exact absurd (congrArg Prod.fst hres) (by simp)
        · exact absurd (congrArg Prod.fst hres) (by simp)
      · rename_i agp aggFunc colStr2 hag fcb ci cacheX hfcb
        dsimp only at hres
        refine ih _ _ _ _ _ ?_ ?_ hres
        · intro h
          exact absurd h (by simp)
        · intro s0 r h
          cases sel with
          | nil =>
            have hb := h1 rfl
            subst hb
            simp only [List.nil_append] at h
            injection h with h5 h6
            subst h5
            rfl
          | cons s1 r1 =>
            have hb := h2 s1 r1 rfl
            subst hb
            simp only [List.cons_append] at h
            injection h with h5 h6
            subst h5
            rfl

/-- `_detect_optimal_base_table` keeps the current base when none of the
select columns' tables is a priority job table. -/
theorem detectOptimal_keep (sel : List SelCol) (cur : Option String)
    (h : ∀ sc ∈ sel, sc.table ∉ (["job", "job_detail", "job_schedule"] : List String)) :
    detectOptimalBaseTable sel cur = cur := by
  simp only [detectOptimalBaseTable]
  have hfind : (["job", "job_detail", "job_schedule"] : List String).find?
      (List.map SelCol.table sel).contains = none := by
    rw [List.find?_eq_none]
    intro t ht hc
    obtain ⟨sc, hsc, hte⟩ := by
      have := contains_true_iff.mp hc
      exact List.mem_map.mp this
    exact h sc hsc (hte ▸ ht)
  rw [hfind]

/-- C4 (amended): for a legacy `show` query that parses successfully, when
none of the resolved select tables is one of the priority tables (`job`,
`job_detail`, `job_schedule`) the base_table is the table of the first
listed column; otherwise `_detect_optimal_base_table` may override it, as
the counterexample shows. -/
theorem c4_theorem (env : Env) (cache : Cache) (q : String) (pq : Parsed) (cacheF : Cache)
    (hshow : beginsWith (lowerS (stripS q)) "show " = true)
    (hnprim : beginsWith (lowerS (stripS q)) "primary " = false)
    (hok : parseQ env cache q = (.ok pq, cacheF))
    (hnoprio : ∀ sc ∈ pq.select_columns,
      sc.table ∉ (["job", "job_detail", "job_schedule"] : List String)) :
    ∀ sc0 rest, pq.select_columns = sc0 :: rest → pq.base_table = some sc0.table := by
  intro sc0 rest hsel
  obtain ⟨cp, cd, ob, od, hpf⟩ :=
    parseFormat_show (stripS q) (lowerS (stripS q)) hnprim hshow
  simp only [parseQ] at hok
  rw [hpf] at hok
  dsimp only at hok
  split at hok
  · exact absurd (congrArg Prod.fst hok) (by simp)
  · rename_i r sel base1 cache2 hres
    by_cases hemp : sel.isEmpty
    · rw [if_pos hemp] at hok
      exact absurd (congrArg Prod.fst hok) (by simp)
    · rw [if_neg hemp] at hok
      split at hok
      · exact absurd (congrArg Prod.fst hok) (by simp)
      · rename_i r2 wps ps wts cache3 hconds
        have hinj := congrArg Prod.fst hok
        dsimp only at hinj
        injection hinj with hpq
        subst hpq
        dsimp only at hsel hnoprio ⊢
        have hinv := resolveSelCols_base env (splitOnS cp ",") cache [] none
          (sel, base1) cache2 (fun _ => rfl) (fun s r h => absurd h (by simp)) hres
        have hb1 : base1 = some sc0.table := hinv.2 sc0 rest hsel
        rw [detectOptimal_keep sel base1 hnoprio, hb1]
        rfl

/-- The parse of `show cname` against the two-table schema, for the C4
witness. -/
def pqShowOne : Parsed :=
  { select_columns := [{ table := "company", column := "cname", aggregate := none }],
    base_table := some "company", where_parts := [], params := [],
    where_tables := [], order_by := none, order_dir := "ASC" }

/-- C4 witness: with no job table among the select columns, the base table
is the first column's table. -/
theorem c4_witness : pqShowOne.base_table = some "company" := by
  exact c4_theorem envShowBase emptyCache "show cname" pqShowOne emptyCache
    rfl rfl rfl (by decide)
    { table := "company", column := "cname", aggregate := none } [] rfl

/-! ## C1: placeholders and parameters -/

/-- Total `%s` placeholder count over a list of WHERE fragments. -/
def countPHL : List String → Nat
  | [] => 0
  | s :: t => countPHS s + countPHL t

theorem notMem_of_pctFree {s : String} (h : pctFree s = true) : '%' ∉ s.data := by
  intro hm
  have hc : s.data.contains '%' = true :=
    List.contains_iff_exists_mem_beq.mpr ⟨'%', hm, by simp⟩
  simp only [pctFree, hc] at h
  exact absurd h (by simp)

theorem pctFree_of_notMem {s : String} (h : '%' ∉ s.data) : pctFree s = true := by
  simp only [pctFree, Bool.not_eq_true']
  cases hcb : s.data.contains '%' with
  | false => rfl
  | true =>
    obtain ⟨x, hx, he⟩ := List.contains_iff_exists_mem_beq.mp hcb
    have hxe : x = '%' := by
      have := eq_of_beq he
      exact this.symm
    exact absurd (hxe ▸ hx) h

theorem countPH_zero {l : List Char} (h : '%' ∉ l) : countPH l = 0 := by
  induction l with
  | nil => rfl
  | cons c t ih =>
    have hc : ¬ c = '%' := fun he => h (he ▸ List.mem_cons_self _ _)
    have ht : '%' ∉ t := fun hm => h (List.mem_cons_of_mem _ hm)
    simp [countPH, hc, ih ht]

theorem countPH_append {l₁ l₂ : List Char} (h : l₁.getLast? ≠ some '%') :
    countPH (l₁ ++ l₂) = countPH l₁ + countPH l₂ := by
  induction l₁ with
  | nil => simp [countPH]
  | cons c t ih =>
    cases t with
    | nil =>
      have hc : ¬ c = '%' := by
        intro he
        exact h (by simp [he, List.getLast?])
      simp [countPH, hc]
    | cons c2 t2 =>
      have h' : (c2 :: t2).getLast? ≠ some '%' := by
        rwa [List.getLast?_cons_cons] at h
      have e1 : countPH ((c :: c2 :: t2) ++ l₂) =
          (if c = '%' ∧ some c2 = some 's' then 1 else 0) + countPH ((c2 :: t2) ++ l₂) := rfl
      have e2 : countPH (c :: c2 :: t2) =
          (if c = '%' ∧ some c2 = some 's' then 1 else 0) + countPH (c2 :: t2) := rfl
      rw [e1, e2, ih h']
      omega

theorem getLast_ne_of_notMem {l : List Char} (h : '%' ∉ l) : l.getLast? ≠ some '%' := by
  induction l with
  | nil => simp
  | cons c t ih =>
    cases t with
    | nil =>
      intro he
      have : c = '%' := by simpa [List.getLast?] using he
      exact h (by simp [this])
    | cons c2 t2 =>
      rw [List.getLast?_cons_cons]
      exact ih (fun hm => h (List.mem_cons_of_mem _ hm))

theorem countPHS_pre {a : String} (b : String) (h : pctFree a = true) :
    countPHS (a ++ b) = countPHS b := by
  have hd : (a ++ b).data = a.data ++ b.data := rfl
  have hnm := notMem_of_pctFree h
  unfold countPHS
  rw [hd, countPH_append (getLast_ne_of_notMem hnm), countPH_zero hnm]
  omega

theorem pctFree_append {a b : String} (ha : pctFree a = true) (hb : pctFree b = true) :
    pctFree (a ++ b) = true := by
  refine pctFree_of_notMem ?_
  have hd : (a ++ b).data = a.data ++ b.data := rfl
  rw [hd]
  intro hm
  rcases List.mem_append.mp hm with hm | hm
  · exact notMem_of_pctFree ha hm
  · exact notMem_of_pctFree hb hm

theorem pctFree_qref {t c : String} (ht : pctFree t = true) (hc : pctFree c = true) :
    pctFree (qref t c) = true := by
  unfold qref
  exact pctFree_append (pctFree_append (pctFree_append (pctFree_append (by rfl) ht) (by rfl)) hc) (by rfl)

def ciOK (ci : ColInfo) : Prop := pctFree ci.table = true ∧ pctFree ci.column = true

def MapOK (m : List (String × List ColInfo)) : Prop := ∀ p ∈ m, ∀ ci ∈ p.2, ciOK ci

def EnvPFree (env : Env) : Prop :=
  (∀ p ∈ env.schema, pctFree p.1 = true ∧ ∀ c ∈ p.2, pctFree c.name = true) ∧
  (∀ p ∈ env.config.custom_mappings, ciOK p.2) ∧
  (∀ p ∈ env.config.default_filters, ∀ flt ∈ p.2, pctFree flt.column = true ∧
    pctFree (flt.opt_op.getD "=") = true)

def CachePFree (cache : Cache) : Prop := ∀ p ∈ cache, ∀ ci ∈ p.2, ciOK ci

theorem aset_MapOK {m : List (String × List ColInfo)} {k : String} {v : List ColInfo}
    (hm : MapOK m) (hv : ∀ ci ∈ v, ciOK ci) : MapOK (aset m k v) := by
  intro p hp
  rcases mem_aset hp with hp | hp
  · exact hm p hp
  · subst hp
    exact hv

theorem addToMap_MapOK {m : List (String × List ColInfo)} {key : String} {ci : ColInfo}
    {u : Bool} (hm : MapOK m) (hc : ciOK ci) : MapOK (addToMap m key ci u) := by
  unfold addToMap
  cases hal : alookup m key with
  | none =>
    exact aset_MapOK hm (by intro x hx; rw [List.mem_singleton] at hx; exact hx ▸ hc)
  | some existing =>
    have hex : ∀ x ∈ existing, ciOK x := hm (key, existing) (alookup_mem hal)
    dsimp only
    cases u with
    | true =>
      rw [if_pos rfl]
      exact aset_MapOK hm (by intro x hx; rw [List.mem_singleton] at hx; exact hx ▸ hc)
    | false =>
      rw [if_neg (by simp)]
      by_cases hdup :
          (existing.any fun e => decide (e.table = ci.table ∧ e.column = ci.column)) = true
      · rw [if_pos hdup]
        exact hm
      · rw [if_neg hdup]
        refine aset_MapOK hm ?_
        intro x hx
        rcases List.mem_append.mp hx with hx | hx
        · exact hex x hx
        · rw [List.mem_singleton] at hx
          exact hx ▸ hc

theorem addColKeys_MapOK {m : List (String × List ColInfo)} {table : String} {c : Col}
    (hm : MapOK m) (hc : ciOK { table := table, column := c.name }) :
    MapOK (addColKeys m table c) := by
  unfold addColKeys
  dsimp only
  refine ?_
  by_cases h4 : replaceS (lowerS c.name) "_" "" ≠ lowerS c.name
  · rw [if_pos h4]
    refine addToMap_MapOK ?_ hc
    by_cases h3 : commonCols.contains (lowerS c.name)
    · rw [if_pos h3]
      exact addToMap_MapOK (addToMap_MapOK (addToMap_MapOK hm hc) hc) hc
    · rw [if_neg h3]
      exact addToMap_MapOK (addToMap_MapOK hm hc) hc
  · rw [if_neg h4]
    by_cases h3 : commonCols.contains (lowerS c.name)
    · rw [if_pos h3]
      exact addToMap_MapOK (addToMap_MapOK (addToMap_MapOK hm hc) hc) hc
    · rw [if_neg h3]
      exact addToMap_MapOK (addToMap_MapOK hm hc) hc

theorem buildColumnMap_MapOK {env : Env} (henv : EnvPFree env) :
    MapOK (buildColumnMap env) := by
  unfold buildColumnMap
  dsimp only
  have hauto : ∀ (l : List (String × List Col)) (m : List (String × List ColInfo)),
      (∀ p ∈ l, pctFree p.1 = true ∧ ∀ c ∈ p.2, pctFree c.name = true) →
      MapOK m →
      MapOK (l.foldl (fun m tc => tc.2.foldl (fun m c => addColKeys m tc.1 c) m) m) := by
    intro l
    induction l with
    | nil => intro m _ hm; exact hm
    | cons tc rest ih =>
      intro m hl hm
      refine ih _ (fun p hp => hl p (List.mem_cons_of_mem _ hp)) ?_
      have htc := hl tc (List.mem_cons_self _ _)
      have hinner : ∀ (cl : List Col) (m0 : List (String × List ColInfo)),
          (∀ c ∈ cl, pctFree c.name = true) → MapOK m0 →
          MapOK (cl.foldl (fun m c => addColKeys m tc.1 c) m0) := by
        intro cl
        induction cl with
        | nil => intro m0 _ hm0; exact hm0
        | cons c cr ihc =>
          intro m0 hcl hm0
          refine ihc _ (fun x hx => hcl x (List.mem_cons_of_mem _ hx)) ?_
          exact addColKeys_MapOK hm0 ⟨htc.1, hcl c (List.mem_cons_self _ _)⟩
      exact hinner _ _ htc.2 hm
  have hcust : ∀ (l : List (String × ColInfo)) (m : List (String × List ColInfo)),
      (∀ p ∈ l, ciOK p.2) → MapOK m →
      MapOK (l.foldl (fun m ac => aset m (lowerS ac.1) [ac.2]) m) := by
    intro l
    induction l with
    | nil => intro m _ hm; exact hm
    | cons ac rest ih =>
      intro m hl hm
      refine ih _ (fun p hp => hl p (List.mem_cons_of_mem _ hp)) ?_
      refine aset_MapOK hm ?_
      intro x hx
      rw [List.mem_singleton] at hx
      exact hx ▸ hl ac (List.mem_cons_self _ _)
  exact hcust _ _ henv.2.1 (hauto _ _ henv.1 (by intro p hp; cases hp))

theorem getMatches_ok {env : Env} (henv : EnvPFree env) (key : String) :
    ∀ ci ∈ getMatches env key, ciOK ci := by
  unfold getMatches
  cases hal : alookup (buildColumnMap env) key with
  | none => intro ci hci; cases hci
  | some v =>
    intro ci hci
    exact buildColumnMap_MapOK henv (key, v) (alookup_mem hal) ci hci

theorem tableColumns_prov_aux (schema : List (String × List Col)) :
    ∀ (l : List (String × List Col)) (m : List (String × List String)),
      (∀ q ∈ l, q ∈ schema) →
      (∀ p ∈ m, ∃ cols, (p.1, cols) ∈ schema ∧ p.2 = cols.map Col.name) →
      ∀ p ∈ l.foldl (fun m tc => aset m tc.1 (tc.2.map Col.name)) m,
        ∃ cols, (p.1, cols) ∈ schema ∧ p.2 = cols.map Col.name := by
  intro l
  induction l with
  | nil => intro m _ hm; exact hm
  | cons tc rest ih =>
    intro m hl hm
    refine ih _ (fun q hq => hl q (List.mem_cons_of_mem _ hq)) ?_
    intro p hp
    rcases mem_aset hp with hp | hp
    · exact hm p hp
    · subst hp
      exact ⟨tc.2, hl tc (List.mem_cons_self _ _), rfl⟩

theorem tableColumns_ok {env : Env} (henv : EnvPFree env) :
    ∀ p ∈ tableColumns env, pctFree p.1 = true ∧ ∀ cn ∈ p.2, pctFree cn = true := by
  intro p hp
  obtain ⟨cols, hmem, heq⟩ := tableColumns_prov_aux env.schema env.schema []
    (fun q hq => hq) (by intro p hp; cases hp) p hp
  have hs := henv.1 (p.1, cols) hmem
  refine ⟨hs.1, ?_⟩
  intro cn hcn
  rw [heq] at hcn
  obtain ⟨c, hc, he⟩ := List.mem_map.mp hcn
  exact he ▸ hs.2 c hc

theorem dotScan_ok :
    ∀ (l : List (String × List String)) (th cn : String),
      (∀ p ∈ l, pctFree p.1 = true ∧ ∀ x ∈ p.2, pctFree x = true) →
      ∀ ci, dotSearch.dotScan l th cn = some ci → ciOK ci := by
  intro l
  induction l with
  | nil =>
    intro th cn _ ci h
    simp [dotSearch.dotScan] at h
  | cons p rest ih =>
    intro th cn hl ci h
    obtain ⟨table, cols⟩ := p
    unfold dotSearch.dotScan at h
    split at h
    · split at h
      · rename_i c hfind
        injection h with h2
        have hcm := List.mem_of_find?_eq_some hfind
        have hp := hl (table, cols) (List.mem_cons_self _ _)
        rw [← h2]
        exact ⟨hp.1, hp.2 c hcm⟩
      · exact ih th cn (fun q hq => hl q (List.mem_cons_of_mem _ hq)) ci h
    · exact ih th cn (fun q hq => hl q (List.mem_cons_of_mem _ hq)) ci h

theorem dotSearch_ok {env : Env} (henv : EnvPFree env) {cp : String} {ci : ColInfo}
    (h : dotSearch env cp = some ci) : ciOK ci := by
  unfold dotSearch at h
  split at h
  · cases h
  · exact dotScan_ok _ _ _ (tableColumns_ok henv) ci h

theorem insertScoreDesc_mem {z x : ScoredCI} :
    ∀ {l : List ScoredCI}, z ∈ insertScoreDesc x l → z = x ∨ z ∈ l := by
  intro l
  induction l with
  | nil =>
    intro h
    unfold insertScoreDesc at h
    rw [List.mem_singleton] at h
    exact Or.inl h
  | cons y ys ih =>
    intro h
    unfold insertScoreDesc at h
    split at h
    · rcases List.mem_cons.mp h with h | h
      · exact Or.inr (h ▸ List.mem_cons_self _ _)
      · rcases ih h with h | h
        · exact Or.inl h
        · exact Or.inr (List.mem_cons_of_mem _ h)
    · rcases List.mem_cons.mp h with h | h
      · exact Or.inl h
      · exact Or.inr h

theorem sortScoreDesc_mem {z : ScoredCI} {l : List ScoredCI}
    (h : z ∈ sortScoreDesc l) : z ∈ l := by
  unfold sortScoreDesc at h
  suffices haux : ∀ (l : List ScoredCI) (acc : List ScoredCI),
      z ∈ l.foldl (fun acc x => insertScoreDesc x acc) acc → z ∈ acc ∨ z ∈ l by
    rcases haux l [] h with h' | h'
    · cases h'
    · exact h'
  intro l
  induction l with
  | nil => intro acc h'; exact Or.inl h'
  | cons x xs ih =>
    intro acc h'
    rcases ih _ h' with h2 | h2
    · rcases insertScoreDesc_mem h2 with h3 | h3
      · exact Or.inr (h3 ▸ List.mem_cons_self _ _)
      · exact Or.inl h3
    · exact Or.inr (List.mem_cons_of_mem _ h2)

theorem foldl_preserve {α β : Type} (P : β → Prop) :
    ∀ (l : List α) (f : β → α → β),
      (∀ b a, a ∈ l → P b → P (f b a)) →
      ∀ b, P b → P (l.foldl f b) := by
  intro l
  induction l with
  | nil => intro f _ b hb; exact hb
  | cons a t ih =>
    intro f hstep b hb
    exact ih f (fun b0 a0 ha0 hb0 => hstep b0 a0 (List.mem_cons_of_mem _ ha0) hb0) _
      (hstep b a (List.mem_cons_self _ _) hb)

theorem fuzzyScan_ok {env : Env} (henv : EnvPFree env) (st : String) :
    ∀ ci ∈ fuzzyScan env st, ciOK ci := by
  intro ci hci
  unfold fuzzyScan at hci
  dsimp only at hci
  obtain ⟨s, hs, he⟩ := List.mem_map.mp hci
  have hs2 := sortScoreDesc_mem hs
  refine he ▸ (foldl_preserve (fun acc => ∀ x ∈ acc, ciOK x.ci) (tableColumns env) _
    ?_ [] (by intro x hx; cases hx)) s hs2
  intro acc tc htc hacc
  have hok := tableColumns_ok henv tc htc
  refine foldl_preserve (fun acc => ∀ x ∈ acc, ciOK x.ci) tc.2 _ ?_ acc hacc
  intro acc0 col hcol hacc0
  intro x hx
  split at hx
  · rcases List.mem_append.mp hx with hx | hx
    · exact hacc0 x hx
    · rw [List.mem_singleton] at hx
      subst hx
      exact ⟨hok.1, hok.2 col hcol⟩
  · exact hacc0 x hx

theorem fuzzySearch_ok {env : Env} {cache : Cache} (henv : EnvPFree env)
    (hcache : CachePFree cache) (st : String) :
    (∀ ci ∈ (fuzzySearch env cache st).1, ciOK ci) ∧
    CachePFree (fuzzySearch env cache st).2 := by
  unfold fuzzySearch
  cases hal : alookup cache st with
  | some r =>
    exact ⟨fun ci hci => hcache (st, r) (alookup_mem hal) ci hci, hcache⟩
  | none =>
    dsimp only
    refine ⟨fun ci hci => fuzzyScan_ok henv st ci hci, ?_⟩
    split
    · intro p hp
      rcases mem_aset hp with hp | hp
      · exact hcache p hp
      · subst hp
        exact fun ci hci => fuzzyScan_ok henv st ci hci
    · exact hcache

theorem head?_mem {α : Type} {l : List α} {x : α} (h : l.head? = some x) : x ∈ l := by
  cases l with
  | nil => cases h
  | cons a t =>
    injection h with h2
    exact h2 ▸ List.mem_cons_self _ _

theorem selectBestMatch_mem {env : Env} {ms : List ColInfo} {st : String}
    {pt : Option String} {ci : ColInfo} (h : selectBestMatch env ms st pt = some ci) :
    ci ∈ ms := by
  unfold selectBestMatch at h
  split at h
  · cases h
  · dsimp only at h
    have hm := head?_mem h
    obtain ⟨s, hs, he⟩ := List.mem_map.mp hm
    have hs2 := sortScoreDesc_mem hs
    obtain ⟨m, hm2, he2⟩ := List.mem_map.mp hs2
    rw [← he, ← he2]
    exact hm2

theorem pickMatch_mem {env : Env} {ms : List ColInfo} {st : String}
    {pt : Option String} {ci : ColInfo} (h : pickMatch env ms st pt = some ci) :
    ci ∈ ms := by
  unfold pickMatch at h
  split at h
  · cases h
  · injection h with h2
    exact h2 ▸ List.mem_cons_self _ _
  · exact selectBestMatch_mem h

theorem findColumn_ok {env : Env} {cache : Cache} (colPart : String) (pt : Option String)
    (henv : EnvPFree env) (hcache : CachePFree cache) :
    (∀ ci, (findColumn env cache colPart pt).1 = some ci → ciOK ci) ∧
    CachePFree (findColumn env cache colPart pt).2 := by
  unfold findColumn
  dsimp only
  cases hd : (if hasChar (lowerS (stripS colPart)) '.' = true then
      dotSearch env (lowerS (stripS colPart)) else none) with
  | some ci0 =>
    have hds : dotSearch env (lowerS (stripS colPart)) = some ci0 := by
      by_cases hc : hasChar (lowerS (stripS colPart)) '.' = true
      · rwa [if_pos hc] at hd
      · rw [if_neg hc] at hd; cases hd
    refine ⟨?_, hcache⟩
    intro ci hci
    injection hci with h2
    exact h2 ▸ dotSearch_ok henv hds
  | none =>
    dsimp only
    repeat' split
    all_goals
      refine ⟨fun ci hci => ?_, ?_⟩ <;>
      first
        | exact hcache
        | exact (fuzzySearch_ok henv hcache _).2
        | (try dsimp only at hci
           have hmem := pickMatch_mem hci
           first
             | exact getMatches_ok henv _ ci hmem
             | cases hmem
             | exact (fuzzySearch_ok henv hcache _).1 ci hmem)


theorem findBooleanOne_prov {env : Env} {table : String} {boolCols isCols : List String}
    {v : String} {r : ColInfo × Bool} (hsub : ∀ c ∈ isCols, c ∈ boolCols)
    (h : findBooleanOne env table boolCols isCols v = some r) :
    r.1.table = table ∧ r.1.column ∈ boolCols := by
  unfold findBooleanOne at h
  dsimp only at h
  split at h
  · rename_i r0 heq
    split at heq
    · rename_i bc bv hal
      split at heq
      · rename_i hcont
        injection heq with heq2
        injection h with h2
        subst heq2
        subst h2
        exact ⟨rfl, contains_true_iff.mp hcont⟩
      · cases heq
    · cases heq
  · rename_i heq0
    split at h
    · rename_i r1 heq1
      split at heq1
      · split at heq1
        · rename_i r2 heq2
          split at heq2
          · rename_i bc hal2
            split at heq2
            · rename_i hcont
              injection heq2 with heq3
              injection heq1 with heq4
              injection h with h2
              subst heq3
              subst heq4
              subst h2
              exact ⟨rfl, contains_true_iff.mp hcont⟩
            · cases heq2
          · cases heq2
        · split at heq1
          · rename_i c hfind
            injection heq1 with heq4
            injection h with h2
            subst heq4
            subst h2
            exact ⟨rfl, hsub c (List.mem_of_find?_eq_some hfind)⟩
          · cases heq1
      · cases heq1
    · split at h
      · rename_i c hfind
        injection h with h2
        subst h2
        exact ⟨rfl, hsub c (List.mem_of_find?_eq_some hfind)⟩
      · split at h
        · rename_i c hfind
          injection h with h2
          subst h2
          exact ⟨rfl, hsub c (List.mem_of_find?_eq_some hfind)⟩
        · cases h

theorem findBooleanColumnForStatus_ok {env : Env} {table : String}
    (henv : EnvPFree env) (htable : pctFree table = true) (vs : List String) :
    ∀ r ∈ findBooleanColumnForStatus env table vs, ciOK r.1 := by
  have hcols : ∀ (col : Col), col ∈ (alookup env.schema table).getD [] →
      pctFree col.name = true := by
    intro col hcol
    cases hal : alookup env.schema table with
    | none => rw [hal] at hcol; cases hcol
    | some cols =>
      rw [hal] at hcol
      exact (henv.1 (table, cols) (alookup_mem hal)).2 col hcol
  unfold findBooleanColumnForStatus
  dsimp only
  refine foldl_preserve (fun acc : List (ColInfo × Bool) => ∀ x ∈ acc, ciOK x.1) vs _ ?_
    [] (by intro x hx; cases hx)
  intro acc v hv hacc x hx
  split at hx
  · rename_i r0 hfb
    rcases List.mem_append.mp hx with hx | hx
    · exact hacc x hx
    · rw [List.mem_singleton] at hx
      subst hx
      have hprov := findBooleanOne_prov (fun c hc => List.mem_of_mem_filter hc) hfb
      refine ⟨hprov.1.symm ▸ htable, ?_⟩
      obtain ⟨col, hcolf, he⟩ := List.mem_map.mp hprov.2
      exact he ▸ hcols col (List.mem_of_mem_filter hcolf)
  · exact hacc x hx

theorem toLower_pct {c : Char} (h : c.toLower = '%') : c = '%' := by
  unfold Char.toLower at h
  dsimp only at h
  split at h
  · exfalso
    rename_i hcond
    have hval : (c.toNat + 32).isValidChar := Or.inl (by omega)
    have hv : (Char.ofNat (c.toNat + 32)).toNat = c.toNat + 32 := by
      rw [Char.ofNat, dif_pos hval]
      simp [Char.ofNatAux, Char.toNat, UInt32.toNat]
    have h2 := congrArg Char.toNat h
    rw [hv] at h2
    have h3 : ('%' : Char).toNat = 37 := rfl
    rw [h3] at h2
    omega
  · exact h

theorem pctFree_lowerS {s : String} (h : pctFree s = true) : pctFree (lowerS s) = true := by
  refine pctFree_of_notMem ?_
  intro hm
  have hd : (lowerS s).data = s.data.map Char.toLower := rfl
  rw [hd] at hm
  obtain ⟨c, hc, he⟩ := List.mem_map.mp hm
  exact notMem_of_pctFree h (toLower_pct he ▸ hc)

theorem replaceFuel_subset {old new : List Char} {x : Char} :
    ∀ (fuel : Nat) (hay : List Char), x ∈ replaceFuel old new fuel hay →
      x ∈ new ∨ x ∈ hay := by
  intro fuel
  induction fuel with
  | zero =>
    intro hay hx
    cases hay with
    | nil => cases hx
    | cons c t => exact Or.inr hx
  | succ f ih =>
    intro hay hx
    cases hay with
    | nil => cases hx
    | cons c t =>
      unfold replaceFuel at hx
      split at hx
      · rcases List.mem_append.mp hx with hx | hx
        · exact Or.inl hx
        · rcases ih _ hx with hx | hx
          · exact Or.inl hx
          · exact Or.inr (List.mem_of_mem_drop hx)
      · rcases List.mem_cons.mp hx with hx | hx
        · exact Or.inr (hx ▸ List.mem_cons_self _ _)
        · rcases ih _ hx with hx | hx
          · exact Or.inl hx
          · exact Or.inr (List.mem_cons_of_mem _ hx)

theorem pctFree_replaceS {s old new : String} (hs : pctFree s = true)
    (hn : pctFree new = true) : pctFree (replaceS s old new) = true := by
  refine pctFree_of_notMem ?_
  intro hm
  have hd : (replaceS s old new).data = replaceList s.data old.data new.data := rfl
  rw [hd] at hm
  unfold replaceList at hm
  split at hm
  · exact notMem_of_pctFree hs hm
  · rcases replaceFuel_subset _ _ hm with hm | hm
    · exact notMem_of_pctFree hn hm
    · exact notMem_of_pctFree hs hm

def lastNe (s : String) : Prop := s.data.getLast? ≠ some '%'

theorem getLastNe_append {l₁ l₂ : List Char} (h₁ : l₁.getLast? ≠ some '%')
    (h₂ : l₂.getLast? ≠ some '%') : (l₁ ++ l₂).getLast? ≠ some '%' := by
  cases l₂ with
  | nil => simpa using h₁
  | cons a t =>
    rw [List.getLast?_append_cons]
    exact h₂

theorem lastNe_append {x y : String} (hx : lastNe x) (hy : lastNe y) : lastNe (x ++ y) :=
  getLastNe_append hx hy

theorem lastNe_of_pctFree {x : String} (h : pctFree x = true) : lastNe x :=
  getLast_ne_of_notMem (notMem_of_pctFree h)

theorem countPHS_append {x y : String} (h : lastNe x) :
    countPHS (x ++ y) = countPHS x + countPHS y := by
  have hd : (x ++ y).data = x.data ++ y.data := rfl
  unfold countPHS
  rw [hd, countPH_append h]

theorem countPHS_zero {x : String} (h : pctFree x = true) : countPHS x = 0 :=
  countPH_zero (notMem_of_pctFree h)

theorem lastNe_joinSep {sep : String} (hs : lastNe sep) :
    ∀ l : List String, (∀ p ∈ l, lastNe p) → lastNe (joinSep sep l) := by
  intro l
  induction l with
  | nil =>
    intro _
    intro hc
    cases hc
  | cons p rest ih =>
    intro hl
    cases rest with
    | nil => exact hl p (List.mem_cons_self _ _)
    | cons q r2 =>
      have e : joinSep sep (p :: q :: r2) = p ++ sep ++ joinSep sep (q :: r2) := rfl
      rw [e]
      exact lastNe_append (lastNe_append (hl p (List.mem_cons_self _ _)) hs)
        (ih (fun x hx => hl x (List.mem_cons_of_mem _ hx)))

theorem countPHS_joinSep {sep : String} (hsep : pctFree sep = true) :
    ∀ l : List String, (∀ p ∈ l, lastNe p) →
      countPHS (joinSep sep l) = countPHL l := by
  intro l
  induction l with
  | nil => intro _; rfl
  | cons p rest ih =>
    cases rest with
    | nil =>
      intro _
      show countPHS p = countPHS p + 0
      omega
    | cons q r2 =>
      intro hl
      have e : joinSep sep (p :: q :: r2) = p ++ sep ++ joinSep sep (q :: r2) := rfl
      rw [e]
      rw [countPHS_append (lastNe_append (hl p (List.mem_cons_self _ _))
        (lastNe_of_pctFree hsep))]
      rw [countPHS_append (hl p (List.mem_cons_self _ _))]
      rw [countPHS_zero hsep, ih (fun x hx => hl x (List.mem_cons_of_mem _ hx))]
      show countPHS p + 0 + countPHL (q :: r2) = countPHS p + countPHL (q :: r2)
      omega

theorem countPHL_ones : ∀ l : List String, (∀ p ∈ l, countPHS p = 1) →
    countPHL l = l.length := by
  intro l
  induction l with
  | nil => intro _; rfl
  | cons p rest ih =>
    intro hl
    show countPHS p + countPHL rest = rest.length + 1
    rw [hl p (List.mem_cons_self _ _), ih (fun x hx => hl x (List.mem_cons_of_mem _ hx))]
    omega

theorem regularTail_count {ci : ColInfo} {colType op : String} {values : List String}
    {d : CondDelta} (hci : ciOK ci) (hop : pctFree op = true)
    (h : regularTail ci (qref ci.table ci.column) colType op values = .ok d) :
    countPHL d.1 = d.2.1.length := by
  have hpf : pctFree (qref ci.table ci.column) = true := pctFree_qref hci.1 hci.2
  unfold regularTail at h
  split at h
  · split at h
    · cases h
    · injection h with hd
      subst hd
      show countPHS (qref ci.table ci.column ++ " ILIKE %s") + 0 = 1
      rw [countPHS_pre _ hpf]
      rfl
    · injection h with hd
      subst hd
      dsimp only
      have hall1 : ∀ p ∈ values.map (fun _ => qref ci.table ci.column ++ " ILIKE %s"),
          countPHS p = 1 := by
        intro p hp
        obtain ⟨v, hv, he⟩ := List.mem_map.mp hp
        rw [← he, countPHS_pre _ hpf]
        rfl
      have hall2 : ∀ p ∈ values.map (fun _ => qref ci.table ci.column ++ " ILIKE %s"),
          lastNe p := by
        intro p hp
        obtain ⟨v, hv, he⟩ := List.mem_map.mp hp
        rw [← he]
        exact lastNe_append (lastNe_of_pctFree hpf) (by intro hc; cases hc)
      show countPHS ("(" ++ joinSep " OR " (values.map
        (fun _ => qref ci.table ci.column ++ " ILIKE %s")) ++ ")") + 0 =
        (values.map (fun v => Param.s ("%" ++ v ++ "%"))).length
      rw [countPHS_append (lastNe_append (by intro hc; cases hc)
        (lastNe_joinSep (by intro hc; cases hc) _ hall2))]
      rw [show countPHS ")" = 0 from rfl]
      rw [countPHS_pre _ (by decide)]
      rw [countPHS_joinSep (by decide) _ hall2]
      rw [countPHL_ones _ hall1]
      simp
  · split at h
    · cases h
    · injection h with hd
      subst hd
      show countPHS (qref ci.table ci.column ++ " " ++ op ++ " %s") + 0 = 1
      rw [countPHS_pre _ (pctFree_append (pctFree_append hpf (by decide)) hop)]
      rfl
    · injection h with hd
      subst hd
      dsimp only
      have hall1 : ∀ p ∈ values.map (fun (_ : String) => ("%s" : String)),
          countPHS p = 1 := by
        intro p hp
        obtain ⟨v, hv, he⟩ := List.mem_map.mp hp
        rw [← he]
        rfl
      have hall2 : ∀ p ∈ values.map (fun (_ : String) => ("%s" : String)),
          lastNe p := by
        intro p hp
        obtain ⟨v, hv, he⟩ := List.mem_map.mp hp
        rw [← he]
        intro hc
        cases hc
      show countPHS (qref ci.table ci.column ++ " IN (" ++
        joinSep ", " (values.map (fun _ => "%s")) ++ ")") + 0 =
        (values.map Param.s).length
      rw [countPHS_append (lastNe_append
        (lastNe_append (lastNe_of_pctFree hpf) (by intro hc; cases hc))
        (lastNe_joinSep (by intro hc; cases hc) _ hall2))]
      rw [show countPHS ")" = 0 from rfl]
      rw [countPHS_append (lastNe_append (lastNe_of_pctFree hpf) (by intro hc; cases hc))]
      rw [countPHS_zero (pctFree_append hpf (by decide))]
      rw [countPHS_joinSep (by decide) _ hall2]
      rw [countPHL_ones _ hall1]
      simp

theorem tsSpecial_count {env : Env} {ci : ColInfo} {colName : String} {values : List String}
    {d : CondDelta} (hci : ciOK ci) (hcn : pctFree colName = true)
    (h : tsSpecial env ci (qref ci.table ci.column) colName values = some d) :
    countPHL d.1 = d.2.1.length := by
  have hpf : pctFree (qref ci.table ci.column) = true := pctFree_qref hci.1 hci.2
  have hbcn : pctFree (replaceS (replaceS (replaceS colName "_on" "") "_date" "") "_at" "") = true :=
    pctFree_replaceS (pctFree_replaceS (pctFree_replaceS hcn (by decide)) (by decide)) (by decide)
  unfold tsSpecial at h
  split at h
  · dsimp only at h
    split at h
    · split at h
      · rename_i boolCol hfind
        injection h with hd
        subst hd
        have hmem := List.mem_of_find?_eq_some hfind
        have hbc : pctFree boolCol = true := by
          rcases List.mem_cons.mp hmem with hm | hm
          · subst hm
            exact pctFree_append (by decide) hbcn
          · rw [List.mem_singleton] at hm
            subst hm
            exact pctFree_append (pctFree_append (by decide) hbcn) (by decide)
        show countPHS (qref ci.table boolCol ++ " = %s") + 0 = 1
        rw [countPHS_pre _ (pctFree_qref hci.1 hbc)]
        rfl
      · injection h with hd
        subst hd
        show countPHS (qref ci.table ci.column ++ " IS NOT NULL") + 0 = 0
        rw [countPHS_pre _ hpf]
        rfl
    · split at h
      · injection h with hd
        subst hd
        show countPHS (qref ci.table ci.column ++ " IS NULL") + 0 = 0
        rw [countPHS_pre _ hpf]
        rfl
      · cases h
  · cases h

theorem addCondition_count {env : Env} {cache : Cache} {colPart valPart op : String}
    {base : Option String} {d : CondDelta} {cache2 : Cache}
    (henv : EnvPFree env) (hcache : CachePFree cache)
    (hbase : pctFree (base.getD "") = true) (hop : pctFree op = true)
    (hok : addCondition env cache colPart valPart op base = (.ok d, cache2)) :
    countPHL d.1 = d.2.1.length ∧ CachePFree cache2 := by
  unfold addCondition at hok
  dsimp only at hok
  split at hok
  · split at hok
    · exact absurd (congrArg Prod.fst hok) (by simp)
    · have hc2 : cache = cache2 := congrArg Prod.snd hok
      have hinj := congrArg Prod.fst hok
      dsimp only at hinj
      injection hinj with hd
      subst hd
      refine ⟨?_, hc2 ▸ hcache⟩
      dsimp only
      have hbr : ∀ r ∈ findBooleanColumnForStatus env (base.getD "") (condValues valPart),
          ciOK r.1 := findBooleanColumnForStatus_ok henv hbase _
      generalize hbrv : findBooleanColumnForStatus env (base.getD "") (condValues valPart)
        = brv at hbr ⊢
      cases brv with
      | nil => rfl
      | cons r0 rest =>
        cases rest with
        | nil =>
          have h0 := hbr r0 (List.mem_cons_self _ _)
          show countPHS (qref r0.1.table r0.1.column ++ " = %s") + 0 = 1
          rw [countPHS_pre _ (pctFree_qref h0.1 h0.2)]
          rfl
        | cons r1 rest2 =>
          have hall1 : ∀ p ∈ (r0 :: r1 :: rest2).map
              (fun r => qref r.1.table r.1.column ++ " = %s"), countPHS p = 1 := by
            intro p hp
            obtain ⟨r, hr, he⟩ := List.mem_map.mp hp
            have h0 := hbr r hr
            rw [← he, countPHS_pre _ (pctFree_qref h0.1 h0.2)]
            rfl
          have hall2 : ∀ p ∈ (r0 :: r1 :: rest2).map
              (fun r => qref r.1.table r.1.column ++ " = %s"), lastNe p := by
            intro p hp
            obtain ⟨r, hr, he⟩ := List.mem_map.mp hp
            have h0 := hbr r hr
            rw [← he]
            exact lastNe_append (lastNe_of_pctFree (pctFree_qref h0.1 h0.2))
              (by intro hc; cases hc)
          show countPHS ("(" ++ joinSep " OR " ((r0 :: r1 :: rest2).map
            (fun r => qref r.1.table r.1.column ++ " = %s")) ++ ")") + 0 =
            ((r0 :: r1 :: rest2).map (fun r => Param.b r.2)).length
          rw [countPHS_append (lastNe_append (by intro hc; cases hc)
            (lastNe_joinSep (by intro hc; cases hc) _ hall2))]
          rw [show countPHS ")" = 0 from rfl]
          rw [countPHS_pre _ (by decide)]
          rw [countPHS_joinSep (by decide) _ hall2]
          rw [countPHL_ones _ hall1]
          simp
  · split at hok
    · rename_i cacheX heq
      have hc2 : cacheX = cache2 := congrArg Prod.snd hok
      have hinj := congrArg Prod.fst hok
      dsimp only at hinj
      injection hinj with hd
      subst hd
      refine ⟨rfl, ?_⟩
      have := (findColumn_ok colPart base henv hcache).2
      rw [heq] at this
      exact hc2 ▸ this
    · rename_i ci cacheX heq
      have hci : ciOK ci := (findColumn_ok colPart base henv hcache).1 ci (by rw [heq])
      have hcX : CachePFree cacheX := by
        have := (findColumn_ok colPart base henv hcache).2
        rwa [heq] at this
      try dsimp only at hok
      split at hok
      · split at hok
        · rename_i d0 hts
          have hc2 : cacheX = cache2 := congrArg Prod.snd hok
          have hinj := congrArg Prod.fst hok
          dsimp only at hinj
          injection hinj with hd
          subst hd
          exact ⟨tsSpecial_count hci (pctFree_lowerS hci.2) hts, hc2 ▸ hcX⟩
        · have hc2 : cacheX = cache2 := congrArg Prod.snd hok
          have hinj := congrArg Prod.fst hok
          dsimp only at hinj
          exact ⟨regularTail_count hci hop hinj, hc2 ▸ hcX⟩
      · have hc2 : cacheX = cache2 := congrArg Prod.snd hok
        have hinj := congrArg Prod.fst hok
        dsimp only at hinj
        exact ⟨regularTail_count hci hop hinj, hc2 ▸ hcX⟩

theorem findColumn_ok2 {env : Env} {cache : Cache} {cp : String} {pt : Option String}
    {r : Option ColInfo × Cache} (henv : EnvPFree env) (hcache : CachePFree cache)
    (heq : findColumn env cache cp pt = r) :
    (∀ ci, r.1 = some ci → ciOK ci) ∧ CachePFree r.2 := by
  subst heq
  exact findColumn_ok cp pt henv hcache

theorem condTail_count {env : Env} {cache : Cache} {cond condLower : String}
    {base : Option String} {d : CondDelta} {cache2 : Cache}
    (henv : EnvPFree env) (hcache : CachePFree cache)
    (hbase : pctFree (base.getD "") = true)
    (hok : condTail env cache cond condLower base = (.ok d, cache2)) :
    countPHL d.1 = d.2.1.length ∧ CachePFree cache2 := by
  unfold condTail at hok
  split at hok
  · dsimp only at hok
    split at hok
    · rename_i ci cacheX heq
      have hci : ciOK ci := (findColumn_ok2 henv hcache heq).1 ci rfl
      have hcX : CachePFree cacheX := (findColumn_ok2 henv hcache heq).2
      have hc2 : cacheX = cache2 := congrArg Prod.snd hok
      have hinj := congrArg Prod.fst hok
      dsimp only at hinj
      injection hinj with hd
      subst hd
      refine ⟨?_, hc2 ▸ hcX⟩
      show countPHS (qref ci.table ci.column ++ " IS NOT NULL") + 0 = 0
      rw [countPHS_pre _ (pctFree_qref hci.1 hci.2)]
      rfl
    · rename_i cacheX heq
      have hcX : CachePFree cacheX := (findColumn_ok2 henv hcache heq).2
      have hc2 : cacheX = cache2 := congrArg Prod.snd hok
      have hinj := congrArg Prod.fst hok
      dsimp only at hinj
      injection hinj with hd
      subst hd
      exact ⟨rfl, hc2 ▸ hcX⟩
  · split at hok
    · dsimp only at hok
      split at hok
      · rename_i ci cacheX heq
        have hci : ciOK ci := (findColumn_ok2 henv hcache heq).1 ci rfl
        have hcX : CachePFree cacheX := (findColumn_ok2 henv hcache heq).2
        have hc2 : cacheX = cache2 := congrArg Prod.snd hok
        have hinj := congrArg Prod.fst hok
        dsimp only at hinj
        injection hinj with hd
        subst hd
        refine ⟨?_, hc2 ▸ hcX⟩
        show countPHS (qref ci.table ci.column ++ " IS NULL") + 0 = 0
        rw [countPHS_pre _ (pctFree_qref hci.1 hci.2)]
        rfl
      · rename_i cacheX heq
        have hcX : CachePFree cacheX := (findColumn_ok2 henv hcache heq).2
        have hc2 : cacheX = cache2 := congrArg Prod.snd hok
        have hinj := congrArg Prod.fst hok
        dsimp only at hinj
        injection hinj with hd
        subst hd
        exact ⟨rfl, hc2 ▸ hcX⟩
    · split at hok
      · rename_i op0 hfind
        have hop0 : pctFree op0 = true := by
          have hm := List.mem_of_find?_eq_some hfind
          simp only [List.mem_cons, List.mem_singleton, List.not_mem_nil, or_false] at hm
          rcases hm with h | h | h | h | h | h | h <;> subst h <;> decide
        split at hok
        · exact addCondition_count henv hcache hbase hop0 hok
        · have hc2 : cache = cache2 := congrArg Prod.snd hok
          have hinj := congrArg Prod.fst hok
          dsimp only at hinj
          injection hinj with hd
          subst hd
          exact ⟨rfl, hc2 ▸ hcache⟩
      · split at hok
        · exact addCondition_count henv hcache hbase (by decide) hok
        · have hc2 : cache = cache2 := congrArg Prod.snd hok
          have hinj := congrArg Prod.fst hok
          dsimp only at hinj
          injection hinj with hd
          subst hd
          exact ⟨rfl, hc2 ▸ hcache⟩

theorem processCondition_count {env : Env} {cache : Cache} {cond : String}
    {base : Option String} {d : CondDelta} {cache2 : Cache}
    (henv : EnvPFree env) (hcache : CachePFree cache)
    (hbase : pctFree (base.getD "") = true)
    (hok : processCondition env cache cond base = (.ok d, cache2)) :
    countPHL d.1 = d.2.1.length ∧ CachePFree cache2 := by
  unfold processCondition at hok
  dsimp only at hok
  split at hok
  · split at hok
    · split at hok
      · split at hok
        · split at hok
          · rename_i ci cacheX heq
            have hci : ciOK ci := (findColumn_ok2 henv hcache heq).1 ci rfl
            have hcX : CachePFree cacheX := (findColumn_ok2 henv hcache heq).2
            have hc2 : cacheX = cache2 := congrArg Prod.snd hok
            have hinj := congrArg Prod.fst hok
            dsimp only at hinj
            injection hinj with hd
            subst hd
            refine ⟨?_, hc2 ▸ hcX⟩
            show countPHS (qref ci.table ci.column ++
              "::date BETWEEN %s::date AND %s::date") + 0 = 2
            rw [countPHS_pre _ (pctFree_qref hci.1 hci.2)]
            rfl
          · rename_i cacheX heq
            have hcX : CachePFree cacheX := (findColumn_ok2 henv hcache heq).2
            exact condTail_count henv hcX hbase hok
        · exact condTail_count henv hcache hbase hok
      · exact condTail_count henv hcache hbase hok
    · exact condTail_count henv hcache hbase hok
  · exact condTail_count henv hcache hbase hok

theorem countPHL_append : ∀ a b : List String, countPHL (a ++ b) = countPHL a + countPHL b := by
  intro a b
  induction a with
  | nil => show countPHL b = 0 + countPHL b; omega
  | cons p t ih =>
    show countPHS p + countPHL (t ++ b) = countPHS p + countPHL t + countPHL b
    rw [ih]
    omega

theorem buildDefaultFilters_count {env : Env} {tables existing : List String}
    (henv : EnvPFree env) (htb : ∀ t ∈ tables, pctFree t = true) :
    countPHL (buildDefaultFilters env tables existing).1 =
      (buildDefaultFilters env tables existing).2.1.length := by
  unfold buildDefaultFilters
  dsimp only
  refine foldl_preserve (fun acc : List String × List Param × List String × List String =>
    countPHL acc.1 = acc.2.1.length) tables _ ?_ _ rfl
  intro acc table htab hacc
  split
  · exact hacc
  · rename_i flts heq
    have hfl : ∀ flt ∈ flts, pctFree flt.column = true ∧
        pctFree (flt.opt_op.getD "=") = true :=
      henv.2.2 (table, flts) (alookup_mem heq)
    have htp : pctFree table = true := htb table htab
    refine foldl_preserve (fun acc : List String × List Param × List String × List String =>
      countPHL acc.1 = acc.2.1.length) flts _ ?_ acc hacc
    intro acc2 flt hflt hacc2
    dsimp only
    split
    · exact hacc2
    · dsimp only
      have hfc := hfl flt hflt
      show countPHL (acc2.1 ++ [qref table flt.column ++ " " ++ flt.opt_op.getD "=" ++ " %s"])
        = (acc2.2.1 ++ [flt.value]).length
      rw [countPHL_append, List.length_append]
      have h1 : countPHL [qref table flt.column ++ " " ++ flt.opt_op.getD "=" ++ " %s"] = 1 := by
        show countPHS (qref table flt.column ++ " " ++ flt.opt_op.getD "=" ++ " %s") + 0 = 1
        rw [countPHS_pre _ (pctFree_append (pctFree_append
          (pctFree_qref htp hfc.1) (by decide)) hfc.2)]
        rfl
      rw [h1, hacc2]
      simp

def envTsCol : Env :=
  { schema := [("t", [{ name := "completed_on", typ := "timestamp" }])],
    relations := [], config := emptyConfig }

/-- C1 counterexample: for the condition `completed_on=completed` on a
timestamp column, `_process_condition` emits an `IS NOT NULL` fragment with
NO parameter at all — the condition's value `completed` appears zero times in
the parameter list, not exactly once. -/
theorem c1_counterexample :
    (processCondition envTsCol emptyCache "completed_on=completed" none).1 =
      .ok (["\"t\".\"completed_on\" IS NOT NULL"], [], ["t"]) := by
  rfl

/-- C1 (amended): values never reach the SQL text — every emitted WHERE
fragment carries exactly as many `%s` placeholders as parameters are bound
(both for `_process_condition` and for `_build_default_filters`, provided the
schema/config identifiers and operators contain no `%`); but a condition's
value may be bound zero times (dropped conditions, `IS [NOT] NULL`
rewrites), not always exactly once. -/
theorem c1_theorem (env : Env) (cache : Cache) (cond : String) (base : Option String)
    (tables existing : List String) (d : CondDelta) (cache2 : Cache)
    (henv : EnvPFree env) (hcache : CachePFree cache)
    (hbase : pctFree (base.getD "") = true)
    (htb : ∀ t ∈ tables, pctFree t = true)
    (hok : processCondition env cache cond base = (.ok d, cache2)) :
    countPHL d.1 = d.2.1.length ∧
    countPHL (buildDefaultFilters env tables existing).1 =
      (buildDefaultFilters env tables existing).2.1.length :=
  ⟨(processCondition_count henv hcache hbase hok).1, buildDefaultFilters_count henv htb⟩

/-- C1 witness: a concrete text condition binds one parameter for its one
placeholder, and an empty default-filter config contributes zero/zero. -/
theorem c1_witness :
    countPHL ["\"job\".\"jname\" ILIKE %s"] = ([Param.s "%ann%"] : List Param).length ∧
    countPHL (buildDefaultFilters envTextCol ["job"] []).1 =
      (buildDefaultFilters envTextCol ["job"] []).2.1.length := by
  exact c1_theorem envTextCol emptyCache "jname=Ann" none ["job"] []
    (["\"job\".\"jname\" ILIKE %s"], [Param.s "%ann%"], ["job"]) emptyCache
    (by refine ⟨by decide, fun p hp => ?_, fun p hp => ?_⟩ <;>
      exact absurd hp (List.not_mem_nil p))
    (by intro p hp; exact absurd hp (List.not_mem_nil p))
    (by decide) (by decide) (by rfl)

/-! ## C9: determinism of repeated translation (cache coherence) -/

/-- The fuzzy cache is coherent: every memoized entry equals the result of a
fresh scan.  A freshly constructed parser's empty cache is trivially
coherent, and every cache the parser ever produces is (lemmas below). -/
def Coh (env : Env) (c : Cache) : Prop := ∀ p ∈ c, p.2 = fuzzyScan env p.1

theorem fuzzySearch_coh {env : Env} {c : Cache} (st : String) (h : Coh env c) :
    (fuzzySearch env c st).1 = fuzzyScan env st ∧ Coh env (fuzzySearch env c st).2 := by
  unfold fuzzySearch
  cases hal : alookup c st with
  | some r => exact ⟨h (st, r) (alookup_mem hal), h⟩
  | none =>
    dsimp only
    refine ⟨rfl, ?_⟩
    split
    · intro p hp
      rcases mem_aset hp with hp | hp
      · exact h p hp
      · subst hp; rfl
    · exact h

theorem findColumn_coh {env : Env} {c1 c2 : Cache} (cp : String) (pt : Option String)
    (h1 : Coh env c1) (h2 : Coh env c2) :
    (findColumn env c1 cp pt).1 = (findColumn env c2 cp pt).1 ∧
    Coh env (findColumn env c1 cp pt).2 := by
  unfold findColumn
  dsimp only
  cases hd : (if hasChar (lowerS (stripS cp)) '.' = true then
      dotSearch env (lowerS (stripS cp)) else none) with
  | some ci0 => exact ⟨rfl, h1⟩
  | none =>
    dsimp only
    rw [(fuzzySearch_coh (lowerS (stripS cp)) h1).1,
      (fuzzySearch_coh (lowerS (stripS cp)) h2).1]
    repeat' split
    all_goals
      first
        | exact ⟨rfl, h1⟩
        | exact ⟨rfl, (fuzzySearch_coh (lowerS (stripS cp)) h1).2⟩

theorem findAllColumns_coh {env : Env} {c1 c2 : Cache} (cp : String)
    (h1 : Coh env c1) (h2 : Coh env c2) :
    (findAllColumns env c1 cp).1 = (findAllColumns env c2 cp).1 ∧
    Coh env (findAllColumns env c1 cp).2 := by
  unfold findAllColumns
  dsimp only
  repeat' split
  all_goals
    first
      | exact ⟨rfl, h1⟩
      | exact ⟨by rw [(fuzzySearch_coh (lowerS (stripS cp)) h1).1,
            (fuzzySearch_coh (lowerS (stripS cp)) h2).1],
          (fuzzySearch_coh (lowerS (stripS cp)) h1).2⟩

theorem findColumnForBase_coh {env : Env} {c1 c2 : Cache} (cp : String)
    (bt : Option String) (h1 : Coh env c1) (h2 : Coh env c2) :
    (findColumnForBase env c1 cp bt).1 = (findColumnForBase env c2 cp bt).1 ∧
    Coh env (findColumnForBase env c1 cp bt).2 := by
  unfold findColumnForBase
  dsimp only
  split
  · exact findColumn_coh (lowerS (stripS cp)) none h1 h2
  · dsimp only
    repeat' split
    all_goals
      first
        | exact ⟨rfl, h1⟩
        | exact ⟨by rw [(fuzzySearch_coh (lowerS (stripS cp)) h1).1,
              (fuzzySearch_coh (lowerS (stripS cp)) h2).1],
            (fuzzySearch_coh (lowerS (stripS cp)) h1).2⟩

theorem addCondition_coh {env : Env} {c1 c2 : Cache} (cp vp op : String)
    (bt : Option String) (h1 : Coh env c1) (h2 : Coh env c2) :
    (addCondition env c1 cp vp op bt).1 = (addCondition env c2 cp vp op bt).1 ∧
    Coh env (addCondition env c1 cp vp op bt).2 := by
  unfold addCondition
  dsimp only
  split
  · split
    · exact ⟨rfl, h1⟩
    · exact ⟨rfl, h1⟩
  · have hco := findColumn_coh cp bt h1 h2
    cases hf1 : findColumn env c1 cp bt with
    | mk o1 k1 =>
    cases hf2 : findColumn env c2 cp bt with
    | mk o2 k2 =>
    rw [hf1, hf2] at hco
    obtain ⟨he, hk⟩ := hco
    dsimp only at he hk
    subst he
    cases o1 with
    | none => exact ⟨rfl, hk⟩
    | some ci =>
      dsimp only
      repeat' split
      all_goals exact ⟨rfl, hk⟩

theorem condTail_coh {env : Env} {c1 c2 : Cache} (cond condLower : String)
    (bt : Option String) (h1 : Coh env c1) (h2 : Coh env c2) :
    (condTail env c1 cond condLower bt).1 = (condTail env c2 cond condLower bt).1 ∧
    Coh env (condTail env c1 cond condLower bt).2 := by
  unfold condTail
  split
  · rename_i idx heq
    dsimp only
    have hco := findColumn_coh (stripS (takeS cond idx)) bt h1 h2
    cases hf1 : findColumn env c1 (stripS (takeS cond idx)) bt with
    | mk o1 k1 =>
    cases hf2 : findColumn env c2 (stripS (takeS cond idx)) bt with
    | mk o2 k2 =>
    rw [hf1, hf2] at hco
    obtain ⟨he, hk⟩ := hco
    dsimp only at he hk
    subst he
    cases o1 with
    | none => exact ⟨rfl, hk⟩
    | some ci => exact ⟨rfl, hk⟩
  · split
    · rename_i idx heq
      dsimp only
      have hco := findColumn_coh (stripS (takeS cond idx)) bt h1 h2
      cases hf1 : findColumn env c1 (stripS (takeS cond idx)) bt with
      | mk o1 k1 =>
      cases hf2 : findColumn env c2 (stripS (takeS cond idx)) bt with
      | mk o2 k2 =>
      rw [hf1, hf2] at hco
      obtain ⟨he, hk⟩ := hco
      dsimp only at he hk
      subst he
      cases o1 with
      | none => exact ⟨rfl, hk⟩
      | some ci => exact ⟨rfl, hk⟩
    · split
      · split
        · exact addCondition_coh _ _ _ bt h1 h2
        · exact ⟨rfl, h1⟩
      · split
        · exact addCondition_coh _ _ _ bt h1 h2
        · exact ⟨rfl, h1⟩

theorem processCondition_coh {env : Env} {c1 c2 : Cache} (cond : String)
    (bt : Option String) (h1 : Coh env c1) (h2 : Coh env c2) :
    (processCondition env c1 cond bt).1 = (processCondition env c2 cond bt).1 ∧
    Coh env (processCondition env c1 cond bt).2 := by
  unfold processCondition
  dsimp only
  split
  · split
    · split
      · rename_i cpraw rpraw hsplit
        split
        · rename_i a b hdp
          have hco := findColumn_coh (stripS cpraw) bt h1 h2
          cases hf1 : findColumn env c1 (stripS cpraw) bt with
          | mk o1 k1 =>
          cases hf2 : findColumn env c2 (stripS cpraw) bt with
          | mk o2 k2 =>
          rw [hf1, hf2] at hco
          obtain ⟨he, hk⟩ := hco
          dsimp only at he hk
          subst he
          have hk2 : Coh env k2 := by
            have := (findColumn_coh (stripS cpraw) bt h2 h1).2
            rw [hf2] at this
            exact this
          cases o1 with
          | none => exact condTail_coh cond (lowerS cond) bt hk hk2
          | some ci => exact ⟨rfl, hk⟩
        · exact condTail_coh cond (lowerS cond) bt h1 h2
      · exact condTail_coh cond (lowerS cond) bt h1 h2
    · exact condTail_coh cond (lowerS cond) bt h1 h2
  · exact condTail_coh cond (lowerS cond) bt h1 h2

set_option maxHeartbeats 1000000

theorem resolveSelCols_coh {env : Env} :
    ∀ (cols : List String) {c1 c2 : Cache} (sel : List SelCol) (base : Option String),
      Coh env c1 → Coh env c2 →
      (resolveSelCols env c1 cols sel base).1 = (resolveSelCols env c2 cols sel base).1 ∧
      Coh env (resolveSelCols env c1 cols sel base).2 := by
  intro cols
  induction cols with
  | nil =>
    intro c1 c2 sel base h1 h2
    exact ⟨rfl, h1⟩
  | cons c rest ih =>
    intro c1 c2 sel base h1 h2
    unfold resolveSelCols
    dsimp only
    split
    · exact ih _ _ h1 h2
    · generalize hag : (if hasChar (stripS c) ':' = true then
          match split1S (stripS c) ":" with
          | some (p0, p1) =>
            if aggregateFuncs.contains (lowerS p0) = true then (some (upperS p0), stripS p1)
            else (none, stripS c)
          | none => (none, stripS c)
        else ((none : Option String), stripS c)) = agp
      have hco := findColumnForBase_coh agp.2 base h1 h2
      cases hf1 : findColumnForBase env c1 agp.2 base with
      | mk o1 k1 =>
      cases hf2 : findColumnForBase env c2 agp.2 base with
      | mk o2 k2 =>
      rw [hf1, hf2] at hco
      obtain ⟨he, hk⟩ := hco
      dsimp only at he hk
      subst he
      have hk2 : Coh env k2 := by
        have := (findColumnForBase_coh agp.2 base h2 h1).2
        rw [hf2] at this
        exact this
      cases o1 with
      | none =>
        dsimp only
        have hall := findAllColumns_coh agp.2 hk hk2
        cases ha1 : findAllColumns env k1 agp.2 with
        | mk l1 j1 =>
        cases ha2 : findAllColumns env k2 agp.2 with
        | mk l2 j2 =>
        rw [ha1, ha2] at hall
        obtain ⟨hel, hjk⟩ := hall
        dsimp only at hel hjk
        subst hel
        cases l1 with
        | nil => exact ⟨rfl, hjk⟩
        | cons x xs => exact ⟨rfl, hjk⟩
      | some ci =>
        dsimp only
        exact ih _ _ hk hk2

theorem processConds_coh {env : Env} :
    ∀ (conds : List String) {c1 c2 : Cache} (base : Option String) (acc : CondDelta),
      Coh env c1 → Coh env c2 →
      (processConds env c1 conds base acc).1 = (processConds env c2 conds base acc).1 ∧
      Coh env (processConds env c1 conds base acc).2 := by
  intro conds
  induction conds with
  | nil =>
    intro c1 c2 base acc h1 h2
    exact ⟨rfl, h1⟩
  | cons c rest ih =>
    intro c1 c2 base acc h1 h2
    unfold processConds
    dsimp only
    split
    · exact ih _ _ h1 h2
    · have hco := processCondition_coh (stripS c) base h1 h2
      cases hp1 : processCondition env c1 (stripS c) base with
      | mk r1 k1 =>
      cases hp2 : processCondition env c2 (stripS c) base with
      | mk r2 k2 =>
      rw [hp1, hp2] at hco
      obtain ⟨he, hk⟩ := hco
      dsimp only at he hk
      subst he
      have hk2 : Coh env k2 := by
        have := (processCondition_coh (stripS c) base h2 h1).2
        rw [hp2] at this
        exact this
      cases r1 with
      | ok d =>
        obtain ⟨wps, ps, wts⟩ := d
        dsimp only
        exact ih _ _ hk hk2
      | error e => exact ⟨rfl, hk⟩

theorem parseQ_coh {env : Env} {c1 c2 : Cache} (q : String)
    (h1 : Coh env c1) (h2 : Coh env c2) :
    (parseQ env c1 q).1 = (parseQ env c2 q).1 ∧ Coh env (parseQ env c1 q).2 := by
  unfold parseQ
  dsimp only
  split
  · exact ⟨rfl, h1⟩
  · rename_i r pc colsPart condsPart ob od hpf
    have tail : ∀ (kA kB : Cache) (sel0 : List SelCol) (base0 : Option String),
        Coh env kA → Coh env kB →
        ((match resolveSelCols env kA (splitOnS colsPart ",") sel0 base0 with
          | (.error e, cache2) => ((.error e : Except String Parsed), cache2)
          | (.ok (sel, base1), cache2) =>
            if sel.isEmpty then (.error "Tidak ada kolom yang dipilih", cache2)
            else
              let base2 :=
                if pc.isNone then detectOptimalBaseTable sel base1 else base1
              match (match condsPart with
                     | some cp => processConds env cache2 (splitConditions cp) base2
                         ([], [], [])
                     | none => (.ok (([], [], []) : CondDelta), cache2)) with
              | (.error e, cache3) => (.error e, cache3)
              | (.ok (wps, ps, wts), cache3) =>
                (.ok { select_columns := sel, base_table := base2, where_parts := wps,
                       params := ps, where_tables := wts, order_by := ob,
                       order_dir := od }, cache3)).1 =
         (match resolveSelCols env kB (splitOnS colsPart ",") sel0 base0 with
          | (.error e, cache2) => ((.error e : Except String Parsed), cache2)
          | (.ok (sel, base1), cache2) =>
            if sel.isEmpty then (.error "Tidak ada kolom yang dipilih", cache2)
            else
              let base2 :=
                if pc.isNone then detectOptimalBaseTable sel base1 else base1
              match (match condsPart with
                     | some cp => processConds env cache2 (splitConditions cp) base2
                         ([], [], [])
                     | none => (.ok (([], [], []) : CondDelta), cache2)) with
              | (.error e, cache3) => (.error e, cache3)
              | (.ok (wps, ps, wts), cache3) =>
                (.ok { select_columns := sel, base_table := base2, where_parts := wps,
                       params := ps, where_tables := wts, order_by := ob,
                       order_dir := od }, cache3)).1) ∧
        Coh env (match resolveSelCols env kA (splitOnS colsPart ",") sel0 base0 with
          | (.error e, cache2) => ((.error e : Except String Parsed), cache2)
          | (.ok (sel, base1), cache2) =>
            if sel.isEmpty then (.error "Tidak ada kolom yang dipilih", cache2)
            else
              let base2 :=
                if pc.isNone then detectOptimalBaseTable sel base1 else base1
              match (match condsPart with
                     | some cp => processConds env cache2 (splitConditions cp) base2
                         ([], [], [])
                     | none => (.ok (([], [], []) : CondDelta), cache2)) with
              | (.error e, cache3) => (.error e, cache3)
              | (.ok (wps, ps, wts), cache3) =>
                (.ok { select_columns := sel, base_table := base2, where_parts := wps,
                       params := ps, where_tables := wts, order_by := ob,
                       order_dir := od }, cache3)).2 := by
      intro kA kB sel0 base0 hA hB
      have hrc := resolveSelCols_coh (splitOnS colsPart ",") sel0 base0 hA hB
      cases hr1 : resolveSelCols env kA (splitOnS colsPart ",") sel0 base0 with
      | mk r1 m1 =>
      cases hr2 : resolveSelCols env kB (splitOnS colsPart ",") sel0 base0 with
      | mk r2 m2 =>
      rw [hr1, hr2] at hrc
      obtain ⟨he, hm⟩ := hrc
      dsimp only at he hm
      subst he
      have hm2 : Coh env m2 := by
        have := (resolveSelCols_coh (splitOnS colsPart ",") sel0 base0 hB hA).2
        rw [hr2] at this
        exact this
      cases r1 with
      | error e => exact ⟨rfl, hm⟩
      | ok sb =>
        obtain ⟨sel, base1⟩ := sb
        dsimp only
        split
        · exact ⟨rfl, hm⟩
        · cases condsPart with
          | none => exact ⟨rfl, hm⟩
          | some cpn =>
            dsimp only
            have hpc := processConds_coh (splitConditions cpn)
              (if pc.isNone = true then detectOptimalBaseTable sel base1 else base1)
              ([], [], []) hm hm2
            cases hq1 : processConds env m1 (splitConditions cpn)
                (if pc.isNone = true then detectOptimalBaseTable sel base1 else base1)
                ([], [], []) with
            | mk s1 n1 =>
            cases hq2 : processConds env m2 (splitConditions cpn)
                (if pc.isNone = true then detectOptimalBaseTable sel base1 else base1)
                ([], [], []) with
            | mk s2 n2 =>
            rw [hq1, hq2] at hpc
            obtain ⟨hes, hn⟩ := hpc
            dsimp only at hes hn
            subst hes
            cases s1 with
            | error e => exact ⟨rfl, hn⟩
            | ok w =>
              obtain ⟨wps, ps, wts⟩ := w
              exact ⟨rfl, hn⟩
    cases pc with
    | none => exact tail c1 c2 [] none h1 h2
    | some p =>
      dsimp only
      by_cases hp : p = ""
      · rw [if_neg (fun hc => hc hp), if_neg (fun hc => hc hp)]
        exact tail c1 c2 [] none h1 h2
      · rw [if_pos hp, if_pos hp]
        have hco := findColumn_coh p none h1 h2
        cases hf1 : findColumn env c1 p none with
        | mk o1 k1 =>
        cases hf2 : findColumn env c2 p none with
        | mk o2 k2 =>
        rw [hf1, hf2] at hco
        obtain ⟨he, hk⟩ := hco
        dsimp only at he hk
        subst he
        have hk2 : Coh env k2 := by
          have := (findColumn_coh p none h2 h1).2
          rw [hf2] at this
          exact this
        cases o1 with
        | none => exact ⟨rfl, hk⟩
        | some ci =>
          exact tail k1 k2 [{ table := ci.table, column := ci.column, aggregate := none }]
            (some ci.table) hk hk2

theorem buildSql_coh {env : Env} {c1 c2 : Cache} (parsed : Parsed) (limit : Nat)
    (adf : Bool) (h1 : Coh env c1) (h2 : Coh env c2) :
    (buildSql env c1 parsed limit adf).1 = (buildSql env c2 parsed limit adf).1 ∧
    Coh env (buildSql env c1 parsed limit adf).2 := by
  unfold buildSql
  split
  · exact ⟨rfl, h1⟩
  · split
    · exact ⟨rfl, h1⟩
    · dsimp only
      cases hob : parsed.order_by with
      | none => exact ⟨rfl, h1⟩
      | some ob =>
        dsimp only
        have hco := findColumn_coh ob parsed.base_table h1 h2
        cases hf1 : findColumn env c1 ob parsed.base_table with
        | mk o1 k1 =>
        cases hf2 : findColumn env c2 ob parsed.base_table with
        | mk o2 k2 =>
        rw [hf1, hf2] at hco
        obtain ⟨he, hk⟩ := hco
        dsimp only at he hk
        subst he
        cases o1 with
        | none => exact ⟨rfl, hk⟩
        | some ci => exact ⟨rfl, hk⟩

theorem translateQ_coh {env : Env} {c1 c2 : Cache} (q : String) (limit : Nat)
    (h1 : Coh env c1) (h2 : Coh env c2) :
    (translateQ env c1 q limit).1 = (translateQ env c2 q limit).1 ∧
    Coh env (translateQ env c1 q limit).2 := by
  unfold translateQ
  have hco := parseQ_coh q h1 h2
  cases hp1 : parseQ env c1 q with
  | mk r1 k1 =>
  cases hp2 : parseQ env c2 q with
  | mk r2 k2 =>
  rw [hp1, hp2] at hco
  obtain ⟨he, hk⟩ := hco
  dsimp only at he hk
  subst he
  have hk2 : Coh env k2 := by
    have := (parseQ_coh q h2 h1).2
    rw [hp2] at this
    exact this
  cases r1 with
  | error e => exact ⟨rfl, hk⟩
  | ok pq => exact buildSql_coh pq limit true hk hk2

/-- C9: with an unchanged schema snapshot and configuration, translating the
same query twice in a row (the second run reusing the fuzzy cache the first
run produced) yields identical results — same SQL string, same parameter
list, same applied-filter list — since the cache only memoizes fuzzy-scan
results it never changes any outcome. -/
theorem c9_theorem (env : Env) (c0 : Cache) (q : String) (limit : Nat)
    (hcoh : Coh env c0) :
    (translateQ env c0 q limit).1 =
      (translateQ env (translateQ env c0 q limit).2 q limit).1 :=
  (translateQ_coh q limit hcoh (translateQ_coh q limit hcoh hcoh).2).1

/-- C9 witness: the determinism theorem at a concrete schema and query,
starting from the empty (trivially coherent) cache. -/
theorem c9_witness :
    (translateQ envTextCol emptyCache "show jname" 5).1 =
      (translateQ envTextCol (translateQ envTextCol emptyCache "show jname" 5).2
        "show jname" 5).1 :=
  c9_theorem envTextCol emptyCache "show jname" 5
    (fun p hp => absurd hp (List.not_mem_nil p))
